import Mathlib

/-!
# blinky.c: SRAM fill/verify self-test with TIM4 heartbeat

A shallow embedding of src/src/blinky.c.

* Machine words are natural numbers; uint32_t arithmetic that can overflow
  carries an explicit reduction modulo 2 ^ 32.
* The globals of the program (srand, the static x of IRQ_tim4), the
  locals p and sr of main, the peripheral registers the program touches and
  the RAM device form one record, Machine.
* Every side effect is also appended to a ghost trace, so that statements
  about which cells were read or written, how often rand was called and in
  which order the latch acts can be made.
* The RAM is a device with a store and a load operation on an abstract
  device state, so that a working memory, a memory without backing storage
  and a memory with a faulty cell are all instances.
* The two loops of main are embedded twice from the same loop bodies: as
  fuelled big-step walks (main_fill, main_verify, main_pass, main_loop) and
  as a small-step machine (cpuStep) that can be interleaved with timer
  events (tim4_overflow).
-/

namespace Blinky

/-! ## Ports, effects and the machine state -/

/-- GPIO ports the program writes to. -/
inductive Port
  | gpioa
  | gpiob
  | gpioc
  deriving DecidableEq, Repr

/-- Ghost record of one side effect of the program. -/
inductive Effect
  /-- A call of rand that returned the given word. -/
  | rand (y : Nat)
  /-- A 32-bit store of val to the RAM cell at addr. -/
  | write (addr val : Nat)
  /-- A 32-bit load from the RAM cell at addr that returned val. -/
  | read (addr val : Nat)
  /-- A store to the TIM4 status register. -/
  | tim4_sr (v : Nat)
  /-- A call of gpio_write_pin. -/
  | gpio (port : Port) (pin level : Nat)
  /-- A store to the USART1 data register. -/
  | usart1_dr (byte : Nat)
  /-- A call of IRQ_global_disable. -/
  | irq_disable
  deriving DecidableEq, Repr

/-- The RAM as a device: a 32-bit store and a 32-bit load at a byte address,
acting on a device state of type σ. -/
structure Ram (σ : Type) where
  store : σ → Nat → Nat → σ
  load : σ → Nat → Nat

/-- The state of the program and of the hardware it touches. -/
structure Machine (σ : Type) where
  /-- The global static uint32_t srand (line 48). -/
  srand : Nat
  /-- The function-static bool_t x of IRQ_tim4 (line 33). -/
  x : Nat
  /-- The local pointer p of main (line 94), a 32-bit byte address. -/
  p : Nat
  /-- The local checkpoint sr of main (line 94). -/
  sr : Nat
  /-- The TIM4 status register. -/
  tim4_sr : Nat
  /-- The level driven on each GPIO output pin. -/
  pins : Port → Nat → Nat
  /-- Whether interrupts are delivered to the core. -/
  irq_enabled : Bool
  /-- The state of the RAM device. -/
  mem : σ
  /-- Ghost: all side effects so far, oldest first. -/
  trace : List Effect

/-! ## Constants -/

/-- Modelled from the spec: the pin level constant LOW of the absent GPIO
header; the indicator lines are active-low and LOW means lit. -/
def LOW : Nat := 0

/-- Modelled from the spec: the pin level constant HIGH of the absent GPIO
header; the level the LED pins are configured to, unlit. -/
def HIGH : Nat := 1

/-- The end of the tested window, 0x20000000 + 20*1024 (lines 95 and 99). -/
def RAM_END : Nat := 0x20000000 + 20 * 1024

/-- The initial value of srand (line 48). -/
def SEED : Nat := 0x87a2263c

/-! ## Peripheral access -/

/-- Modelled from the spec: gpio_write_pin of the absent GPIO header, the
capability "set indicator level". The level argument is a C truth value: the
pin is driven HIGH when it is non-zero and LOW when it is zero. -/
def gpio_write_pin (port : Port) (pin level : Nat) (st : Machine σ) : Machine σ :=
  { st with
    pins := fun q n => if q = port ∧ n = pin then (if level ≠ 0 then HIGH else LOW)
                       else st.pins q n
    trace := st.trace ++ [Effect.gpio port pin level] }

/-- Modelled from the spec: gpio_configure_pin of the absent GPIO header with
mode GPO_opendrain(speed, level): the pin becomes an output that initially
drives the given level. -/
def gpio_configure_pin (port : Port) (pin level : Nat) (st : Machine σ) : Machine σ :=
  { st with
    pins := fun q n => if q = port ∧ n = pin then (if level ≠ 0 then HIGH else LOW)
                       else st.pins q n }

/-- Modelled from the spec: IRQ_global_disable of the absent platform header,
the capability "disable asynchronous delivery" system-wide. -/
def IRQ_global_disable (st : Machine σ) : Machine σ :=
  { st with irq_enabled := false, trace := st.trace ++ [Effect.irq_disable] }

/-- The bytes stored to the USART1 data register so far, oldest first. -/
def serial : List Effect → List Nat
  | [] => []
  | Effect.usart1_dr b :: es => b :: serial es
  | _ :: es => serial es

/-! ## IRQ_tim4 (lines 31-45) -/

/-- The interrupt handler IRQ_tim4. -/
def IRQ_tim4 (st : Machine σ) : Machine σ :=
  -- tim4->sr = 0;
  let st := { st with tim4_sr := 0, trace := st.trace ++ [Effect.tim4_sr 0] }
  -- gpio_write_pin(gpiob, 12, x); gpio_write_pin(gpioc, 13, x);
  let st := gpio_write_pin Port.gpiob 12 st.x st
  let st := gpio_write_pin Port.gpioc 13 st.x st
  -- x ^= 1;
  let st := { st with x := st.x ^^^ 1 }
  -- usart1->dr = '.';
  { st with trace := st.trace ++ [Effect.usart1_dr 0x2E] }

/-! ## rand (lines 47-57) -/

/-- The three xorshift statements of rand (lines 52-54) on the value of x. -/
def xorshift (x : Nat) : Nat :=
  let x := x ^^^ ((x <<< 13) % 2 ^ 32)
  let x := x ^^^ (x >>> 17)
  let x := x ^^^ ((x <<< 5) % 2 ^ 32)
  x

/-- The function rand: returns the new word and stores it in srand. -/
def rand (st : Machine σ) : Nat × Machine σ :=
  let x := st.srand
  let x := xorshift x
  (x, { st with srand := x, trace := st.trace ++ [Effect.rand x] })

/-- The spec of next: the three steps x1 = x XOR (x shl 13), x2 = x1 XOR
(x1 shr 17), y = x2 XOR (x2 shl 5) written with multiplication, division and
remainder on 32-bit words instead of shifts. -/
def next_spec (x : Nat) : Nat :=
  let x1 := Nat.xor x ((x * 8192) % 4294967296)
  let x2 := Nat.xor x1 (x1 / 131072)
  Nat.xor x2 ((x2 * 32) % 4294967296)

/-! ## The test loop of main (lines 93-102), big-step -/

/-- The number of loop iterations a walk makes from pointer value q: the
number of 4-byte steps until q is no longer below RAM_END. -/
def cells (q : Nat) : Nat := (RAM_END - q + 3) / 4

/-- The byte address of cell i of the window that starts at ebss. -/
def cellAddr (ebss i : Nat) : Nat := ebss + 4 * i

/-- The body of the fill loop, line 96: *p++ = rand(); -/
def fillBody (ram : Ram σ) (st : Machine σ) : Machine σ :=
  let (v, st) := rand st
  let st := { st with mem := ram.store st.mem st.p v,
                      trace := st.trace ++ [Effect.write st.p v] }
  { st with p := (st.p + 4) % 2 ^ 32 }

/-- The condition of line 100 with its side effects: *p++ != rand(). The left
operand is evaluated first. Returns whether the two values differ. -/
def verifyBody (ram : Ram σ) (st : Machine σ) : Bool × Machine σ :=
  let v := ram.load st.mem st.p
  let st := { st with trace := st.trace ++ [Effect.read st.p v] }
  let st := { st with p := (st.p + 4) % 2 ^ 32 }
  let (r, st) := rand st
  (v != r, st)

/-- How one iteration of the for loop of main ends. -/
inductive Flow (σ : Type)
  /-- The end of the loop body was reached; the next iteration follows. -/
  | next (st : Machine σ)
  /-- The statement goto ram_fail was executed in the given state. -/
  | ram_fail (st : Machine σ)

/-- The fill loop, lines 95-96. The result is none when the fuel runs out
before the loop condition becomes false. -/
def main_fill (ram : Ram σ) : Nat → Machine σ → Option (Machine σ)
  | 0, st => if st.p < RAM_END then none else some st
  | fuel + 1, st =>
    if st.p < RAM_END then main_fill ram fuel (fillBody ram st) else some st

/-- The verify loop, lines 99-101. The result is none when the fuel runs out
before the loop ends. -/
def main_verify (ram : Ram σ) : Nat → Machine σ → Option (Flow σ)
  | 0, st => if st.p < RAM_END then none else some (Flow.next st)
  | fuel + 1, st =>
    if st.p < RAM_END then
      match verifyBody ram st with
      | (true, st') => some (Flow.ram_fail st')
      | (false, st') => main_verify ram fuel st'
    else some (Flow.next st)

/-- One iteration of the for loop, lines 94-101; ebss is the address of the
linker symbol _ebss. Each walk gets as much fuel as the window has cells. -/
def main_pass (ram : Ram σ) (ebss : Nat) (st : Machine σ) : Option (Flow σ) :=
  -- uint32_t *p = (uint32_t *)_ebss, sr = srand;
  let st := { st with p := ebss, sr := st.srand }
  match main_fill ram (cells ebss) st with
  | none => none
  | some st =>
    -- srand = sr; p = (uint32_t *)_ebss;
    let st := { st with srand := st.sr }
    let st := { st with p := ebss }
    main_verify ram (cells ebss) st

/-- The first k iterations of the for loop, line 93. -/
def main_loop (ram : Ram σ) (ebss : Nat) : Nat → Machine σ → Option (Flow σ)
  | 0, st => some (Flow.next st)
  | k + 1, st =>
    match main_pass ram ebss st with
    | some (Flow.next st') => main_loop ram ebss k st'
    | r => r

/-- The statements at the label ram_fail before the final idle loop, lines
106-108. -/
def ram_fail (st : Machine σ) : Machine σ :=
  let st := IRQ_global_disable st
  let st := gpio_write_pin Port.gpiob 12 LOW st
  gpio_write_pin Port.gpioc 13 LOW st

/-- The part of the prologue of main that sets state the test loop and the
handler depend on: DATA relocation gives srand its initialiser, BSS zeroing
clears x (lines 62-64), both LED pins are configured HIGH (lines 76-77), and
the TIM4 interrupt is enabled (line 89). The ghost trace starts empty. -/
def main_init (boot : Machine σ) : Machine σ :=
  let st := { boot with srand := SEED, x := 0 }
  let st := gpio_configure_pin Port.gpiob 12 HIGH st
  let st := gpio_configure_pin Port.gpioc 13 HIGH st
  { st with irq_enabled := true, trace := [] }

/-! ## The same program as a small-step machine with timer events -/

/-- Program points of main from the test loop on. -/
inductive Pc
  /-- Line 94, the head of the for loop. -/
  | for_head
  /-- Lines 95-96, the condition of the fill loop. -/
  | fill
  /-- Lines 97-98. -/
  | restore
  /-- Lines 99-101, the condition of the verify loop. -/
  | verify
  /-- Line 106. -/
  | ram_fail
  /-- Line 107. -/
  | led_b12
  /-- Line 108. -/
  | led_c13
  /-- Line 109, the idle loop. -/
  | hang
  deriving DecidableEq, Repr

/-- A machine together with the program point of main. -/
structure Sys (σ : Type) where
  pc : Pc
  m : Machine σ

/-- One step of main. -/
def cpuStep (ram : Ram σ) (ebss : Nat) (s : Sys σ) : Sys σ :=
  match s.pc with
  | Pc.for_head => { pc := Pc.fill, m := { s.m with p := ebss, sr := s.m.srand } }
  | Pc.fill =>
    if s.m.p < RAM_END then { pc := Pc.fill, m := fillBody ram s.m }
    else { pc := Pc.restore, m := s.m }
  | Pc.restore => { pc := Pc.verify, m := { s.m with srand := s.m.sr, p := ebss } }
  | Pc.verify =>
    if s.m.p < RAM_END then
      match verifyBody ram s.m with
      | (true, m') => { pc := Pc.ram_fail, m := m' }
      | (false, m') => { pc := Pc.verify, m := m' }
    else { pc := Pc.for_head, m := s.m }
  | Pc.ram_fail => { pc := Pc.led_b12, m := IRQ_global_disable s.m }
  | Pc.led_b12 => { pc := Pc.led_c13, m := gpio_write_pin Port.gpiob 12 LOW s.m }
  | Pc.led_c13 => { pc := Pc.hang, m := gpio_write_pin Port.gpioc 13 LOW s.m }
  | Pc.hang => s

/-- Modelled from the spec: one period of the recurring TIM4 signal. The
hardware raises the update flag in the status register; the handler runs, to
completion, only while interrupts are delivered. -/
def tim4_overflow (s : Sys σ) : Sys σ :=
  let m := { s.m with tim4_sr := s.m.tim4_sr ||| 1 }
  if m.irq_enabled then { s with m := IRQ_tim4 m } else { s with m := m }

/-- What can happen next: main makes a step, or the timer period elapses. -/
inductive Event
  | cpu
  | tim4
  deriving DecidableEq, Repr

/-- One transition of the system. -/
def step (ram : Ram σ) (ebss : Nat) (s : Sys σ) : Event → Sys σ
  | Event.cpu => cpuStep ram ebss s
  | Event.tim4 => tim4_overflow s

/-- The system after a sequence of events, oldest first. -/
def run (ram : Ram σ) (ebss : Nat) (s : Sys σ) (evs : List Event) : Sys σ :=
  evs.foldl (step ram ebss) s

/-- The system when main reaches the test loop. -/
def startup (boot : Machine σ) : Sys σ :=
  { pc := Pc.for_head, m := main_init boot }

/-! ## Memory devices -/

/-- The window that starts at ebss is fully functional: a load from a cell
returns the value last stored to that cell, and a store to another cell of the
window does not change it. -/
def Functional (ram : Ram σ) (ebss : Nat) : Prop :=
  ∀ (m : σ) (i j v : Nat), i < cells ebss → j < cells ebss →
    ram.load (ram.store m (cellAddr ebss i) v) (cellAddr ebss j) =
      if j = i then v else ram.load m (cellAddr ebss j)

/-- A working RAM: the device state maps a cell address to its content. -/
def idealRam : Ram (Nat → Nat) where
  store := fun m a v => fun b => if b = a then v else m b
  load := fun m a => m a

/-- A RAM without backing storage: there is no device state, stores are
lost and every load returns the fixed word c. -/
def deadRam (c : Nat) : Ram Unit where
  store := fun m _ _ => m
  load := fun _ _ => c

/-- A machine state for examples: everything zero, the given device state. -/
def blank (mem : σ) : Machine σ :=
  { srand := 0, x := 0, p := 0, sr := 0, tim4_sr := 0, pins := fun _ _ => 0,
    irq_enabled := false, mem := mem, trace := [] }

/-! ## What the walks leave behind -/

/-- The effects of n iterations of the fill loop that start with generator
state s and pointer q: a call of rand and a store of its result per cell. -/
def fillTrace (s q : Nat) : Nat → List Effect
  | 0 => []
  | n + 1 =>
    Effect.rand (xorshift s) :: Effect.write q (xorshift s) :: fillTrace (xorshift s) (q + 4) n

/-- The device state after n iterations of the fill loop that start with
generator state s, pointer q and device state m. -/
def fillMem (ram : Ram σ) (s q : Nat) : Nat → σ → σ
  | 0, m => m
  | n + 1, m => fillMem ram (xorshift s) (q + 4) n (ram.store m q (xorshift s))

/-- The effects of n iterations of the verify loop that find no mismatch,
starting with generator state s and pointer q on device state m: a load and
a call of rand per cell. -/
def verifyTrace (ram : Ram σ) (m : σ) (s q : Nat) : Nat → List Effect
  | 0 => []
  | n + 1 =>
    Effect.read q (ram.load m q) :: Effect.rand (xorshift s) ::
      verifyTrace ram m (xorshift s) (q + 4) n

/-- The addresses of the loads in a trace, oldest first. -/
def readAddrs : List Effect → List Nat
  | [] => []
  | Effect.read a _ :: es => a :: readAddrs es
  | _ :: es => readAddrs es

/-- The addresses of the stores in a trace, oldest first. -/
def writeAddrs : List Effect → List Nat
  | [] => []
  | Effect.write a _ :: es => a :: writeAddrs es
  | _ :: es => writeAddrs es

/-- A single flipped bit in the cell at address a of a working RAM. -/
def injectFault (m : Nat → Nat) (a : Nat) : Nat → Nat :=
  fun b => if b = a then m b ^^^ 1 else m b

/-- A 64-cell window: its start address. -/
def EBSS64 : Nat := RAM_END - 256

/-- The machine between the fill walk and the verify walk of the first pass
over a working 64-cell window, with one bit of cell 37 flipped. -/
def faulty37 : Machine (Nat → Nat) :=
  { main_init (blank (fun _ : Nat => 0)) with
    p := EBSS64
    sr := SEED
    mem := injectFault (fillMem idealRam SEED EBSS64 64 (fun _ : Nat => 0)) (cellAddr EBSS64 37) }

/-! ## Linear maps on the bits of a word, for the period of rand -/

/-- The product of a matrix over GF(2), given as the list of its columns
(column k is the image of the word 2 ^ k), with the word x: the XOR of the
columns at the set bits of x. -/
def mapply : List Nat → Nat → Nat
  | [], _ => 0
  | c :: cs, x => (x % 2 * c) ^^^ mapply cs (x / 2)

/-- The matrix product: the columns of a times b are a applied to the
columns of b. -/
def mmul (a b : List Nat) : List Nat := b.map (mapply a)

/-- The 32 by 32 identity matrix. -/
def ident : List Nat := (List.range 32).map (fun i => 2 ^ i)

/-- The matrix of the transform of rand: its columns are the images of the
32 one-bit words. -/
def tmat : List Nat := (List.range 32).map (fun i => xorshift (2 ^ i))

/-- The power of a matrix by repeated squaring; the exponent e has to be below
2 to the fuel. -/
def mpow (m : List Nat) : Nat → Nat → List Nat
  | 0, _ => ident
  | fuel + 1, e =>
    if e = 0 then ident
    else if e % 2 = 1 then mmul (mmul (mpow m fuel (e / 2)) (mpow m fuel (e / 2))) m
    else mmul (mpow m fuel (e / 2)) (mpow m fuel (e / 2))

/-- The matrix of n applications of the transform of rand. -/
def tpow (n : Nat) : List Nat := mpow tmat 32 n

/-- The sum of a matrix and the identity matrix. -/
def addI (m : List Nat) : List Nat := List.zipWith (fun a b => a ^^^ b) m ident

/-- Gauss-Jordan elimination on columns: the first column with bit r set, and
the other columns. Each column carries the matching column of the inverse. -/
def pivot (r : Nat) : List (Nat × Nat) → Option ((Nat × Nat) × List (Nat × Nat))
  | [] => none
  | c :: cs =>
    if c.1.testBit r then some (c, cs)
    else match pivot r cs with
      | none => none
      | some (q, rest) => some (q, c :: rest)

/-- Gauss-Jordan elimination on columns: clear bit r in all columns by adding
the pivot column q. -/
def reduceBy (r : Nat) (q : Nat × Nat) (cs : List (Nat × Nat)) : List (Nat × Nat) :=
  cs.map (fun c => if c.1.testBit r then (c.1 ^^^ q.1, c.2 ^^^ q.2) else c)

/-- Gauss-Jordan elimination on columns: the step for row r on the finished
and the remaining columns. -/
def gaussStep (st : List (Nat × Nat) × List (Nat × Nat)) (r : Nat) :
    List (Nat × Nat) × List (Nat × Nat) :=
  match pivot r st.2 with
  | none => st
  | some (q, rest) => (reduceBy r q st.1 ++ [q], reduceBy r q rest)

/-- A candidate for the inverse of a 32 by 32 matrix, by Gauss-Jordan
elimination. Its use is checked by multiplying it with the matrix. -/
def minv (m : List Nat) : List Nat :=
  ((List.range 32).foldl gaussStep ([], List.zip m ident)).1.map Prod.snd

/-- The period of rand on non-zero words. -/
def PERIOD : Nat := 2 ^ 32 - 1

/-- The matrix of n applications of the transform, plus the identity: its
kernel is the set of words that n applications of the transform fix. -/
def fixmat (n : Nat) : List Nat := addI (tpow n)

/-! ## Example states -/

/-- A latched system: the program on a one-cell window of a RAM without
backing storage, after main has run from the loop head into the idle loop,
with one heartbeat on the way. -/
def latchedExample : Sys Unit :=
  run (deadRam 7) (RAM_END - 4) (startup (blank ()))
    [Event.cpu, Event.tim4, Event.cpu, Event.cpu, Event.cpu, Event.cpu, Event.cpu,
     Event.cpu, Event.cpu]

/-! ## Sequences of rand calls -/

/-- The function rand called n times in a row: the returned words, oldest
first, and the machine afterwards. -/
def rand_seq : Nat → Machine σ → List Nat × Machine σ
  | 0, st => ([], st)
  | n + 1, st =>
    let (y, st) := rand st
    let (ys, st) := rand_seq n st
    (y :: ys, st)

/-- The words returned by the calls of rand in a trace, oldest first. -/
def randOutputs : List Effect → List Nat
  | [] => []
  | Effect.rand y :: es => y :: randOutputs es
  | _ :: es => randOutputs es

/-! ## Event sequences and operations -/

/-- The steps of main in a sequence of events, with the timer periods left
out. -/
def cpuEvents : List Event → List Event
  | [] => []
  | Event.cpu :: es => Event.cpu :: cpuEvents es
  | Event.tim4 :: es => cpuEvents es

/-- The effects of the statements at ram_fail, lines 106-108, in order. -/
def latchEffects : List Effect :=
  [Effect.irq_disable, Effect.gpio Port.gpiob 12 LOW, Effect.gpio Port.gpioc 13 LOW]

/-- The operations of the program that run as a whole: one firing of the
heartbeat handler, one iteration of the fill loop, one iteration of the
verify loop, and the entry of the failure latch. -/
inductive Op
  | heartbeat
  | fill
  | verify
  | latch
  deriving DecidableEq, Repr

/-- The effect of one operation on the machine. -/
def applyOp (ram : Ram σ) (st : Machine σ) : Op → Machine σ
  | Op.heartbeat => IRQ_tim4 st
  | Op.fill => fillBody ram st
  | Op.verify => (verifyBody ram st).2
  | Op.latch => ram_fail st

/-! # Theorems -/

variable {σ : Type}

/-! ## Window arithmetic -/

theorem cells_of_ge {q : Nat} (h : RAM_END ≤ q) : cells q = 0 := by
  unfold cells; unfold RAM_END at *; omega

theorem cells_of_lt {q : Nat} (h : q < RAM_END) : cells q = cells (q + 4) + 1 := by
  unfold cells; unfold RAM_END at *; omega

theorem lt_of_cells_pos {q : Nat} (h : 0 < cells q) : q < RAM_END := by
  unfold cells at h; unfold RAM_END at *; omega

theorem ptr_incr {q : Nat} (h : q < RAM_END) : (q + 4) % 2 ^ 32 = q + 4 := by
  unfold RAM_END at h; omega

theorem cellAddr_lt {ebss i : Nat} (h : i < cells ebss) : cellAddr ebss i < RAM_END := by
  unfold cells at h; unfold cellAddr; unfold RAM_END at *; omega

/-! ## The fill walk -/

theorem fillBody_eq (ram : Ram σ) (st : Machine σ) (h : st.p < RAM_END) :
    fillBody ram st =
      { st with srand := xorshift st.srand, p := st.p + 4,
                mem := ram.store st.mem st.p (xorshift st.srand),
                trace := st.trace ++ fillTrace st.srand st.p 1 } := by
  simp [fillBody, rand, fillTrace]
  unfold RAM_END at h; omega

theorem main_fill_eq (ram : Ram σ) (fuel : Nat) (st : Machine σ) (h : cells st.p ≤ fuel) :
    main_fill ram fuel st =
      some { st with srand := xorshift^[cells st.p] st.srand,
                     p := st.p + 4 * cells st.p,
                     mem := fillMem ram st.srand st.p (cells st.p) st.mem,
                     trace := st.trace ++ fillTrace st.srand st.p (cells st.p) } := by
  induction fuel generalizing st with
  | zero =>
    have h0 : cells st.p = 0 := by omega
    have hp : ¬ st.p < RAM_END := fun hlt => by
      have := cells_of_lt hlt; omega
    simp [main_fill, hp, h0, fillMem, fillTrace]
  | succ f ih =>
    by_cases hp : st.p < RAM_END
    · have hc := cells_of_lt hp
      have hb := fillBody_eq ram st hp
      have hf : cells (fillBody ram st).p ≤ f := by rw [hb]; simp only; omega
      rw [main_fill, if_pos hp, ih _ hf, hb]
      simp only [hc, Function.iterate_succ_apply, fillMem, fillTrace, List.append_assoc,
        List.cons_append, List.nil_append, Option.some.injEq, Machine.mk.injEq, and_true, true_and]
      omega
    · have h0 : cells st.p = 0 := cells_of_ge (by omega)
      simp [main_fill, hp, h0, fillMem, fillTrace]

/-! ## The verify walk -/

theorem verifyBody_eq (ram : Ram σ) (st : Machine σ) (h : st.p < RAM_END) :
    verifyBody ram st =
      (ram.load st.mem st.p != xorshift st.srand,
       { st with srand := xorshift st.srand, p := st.p + 4,
                 trace := st.trace ++ [Effect.read st.p (ram.load st.mem st.p),
                   Effect.rand (xorshift st.srand)] }) := by
  have hq : (st.p + 4) % 2 ^ 32 = st.p + 4 := ptr_incr h
  simp only [verifyBody, rand, verifyTrace, hq, List.append_assoc, List.cons_append, List.nil_append]

/-- As long as the cells match, the verify loop just advances. -/
theorem main_verify_advance (ram : Ram σ) (n fuel : Nat) (st : Machine σ)
    (hn : n ≤ cells st.p) (hf : n ≤ fuel)
    (hm : ∀ j, j < n → ram.load st.mem (st.p + 4 * j) = xorshift^[j + 1] st.srand) :
    main_verify ram fuel st =
      main_verify ram (fuel - n)
        { st with srand := xorshift^[n] st.srand, p := st.p + 4 * n,
                  trace := st.trace ++ verifyTrace ram st.mem st.srand st.p n } := by
  induction n generalizing fuel st with
  | zero => simp [verifyTrace]
  | succ n ih =>
    have hp : st.p < RAM_END := lt_of_cells_pos (by omega)
    have hc := cells_of_lt hp
    obtain ⟨f, rfl⟩ : ∃ f, fuel = f + 1 := ⟨fuel - 1, by omega⟩
    have h0 : ram.load st.mem st.p = xorshift st.srand := by
      have := hm 0 (by omega); simpa using this
    have hb : (ram.load st.mem st.p != xorshift st.srand) = false := by
      rw [h0]; exact bne_self_eq_false _
    rw [main_verify, if_pos hp, verifyBody_eq ram st hp, hb]
    dsimp only
    rw [ih]
    · simp only [Function.iterate_succ_apply, verifyTrace, List.append_assoc,
        List.cons_append, List.nil_append, Nat.add_sub_add_right]
      have e : st.p + 4 + 4 * n = st.p + 4 * (n + 1) := by omega
      rw [e]
    · show n ≤ cells (st.p + 4)
      omega
    · omega
    · intro j hj
      have := hm (j + 1) (by omega)
      rw [Function.iterate_succ_apply] at this
      have e : st.p + 4 + 4 * j = st.p + 4 * (j + 1) := by omega
      dsimp only
      rw [e, this]

theorem main_verify_done (ram : Ram σ) (fuel : Nat) (st : Machine σ)
    (h : RAM_END ≤ st.p) : main_verify ram fuel st = some (Flow.next st) := by
  have hp : ¬ st.p < RAM_END := by omega
  cases fuel with
  | zero => rw [main_verify, if_neg hp]
  | succ f => rw [main_verify, if_neg hp]

theorem walk_end (q : Nat) : RAM_END ≤ q + 4 * cells q := by
  unfold cells RAM_END; omega

/-- The verify loop on a window whose cells all hold the regenerated words. -/
theorem main_verify_pass (ram : Ram σ) (fuel : Nat) (st : Machine σ)
    (hf : cells st.p ≤ fuel)
    (hm : ∀ j, j < cells st.p → ram.load st.mem (st.p + 4 * j) = xorshift^[j + 1] st.srand) :
    main_verify ram fuel st =
      some (Flow.next
        { st with srand := xorshift^[cells st.p] st.srand, p := st.p + 4 * cells st.p,
                  trace := st.trace ++
                    verifyTrace ram st.mem st.srand st.p (cells st.p) }) := by
  rw [main_verify_advance ram (cells st.p) fuel st (le_refl _) hf hm]
  exact main_verify_done _ _ _ (walk_end st.p)

theorem verifyTrace_succ (ram : Ram σ) (m : σ) (s q n : Nat) :
    verifyTrace ram m s q (n + 1) =
      verifyTrace ram m s q n ++
        [Effect.read (q + 4 * n) (ram.load m (q + 4 * n)), Effect.rand (xorshift^[n + 1] s)] := by
  induction n generalizing s q with
  | zero => simp [verifyTrace]
  | succ n ih =>
    rw [verifyTrace, ih, verifyTrace]
    have e : q + 4 + 4 * n = q + 4 * (n + 1) := by omega
    rw [e, Function.iterate_succ_apply xorshift (n + 1) s]
    simp only [List.cons_append]

/-- The verify loop on a window whose first mismatch is in cell i. -/
theorem main_verify_fail (ram : Ram σ) (i fuel : Nat) (st : Machine σ)
    (hi : i < cells st.p) (hf : cells st.p ≤ fuel)
    (hm : ∀ j, j < i → ram.load st.mem (st.p + 4 * j) = xorshift^[j + 1] st.srand)
    (hx : ram.load st.mem (st.p + 4 * i) ≠ xorshift^[i + 1] st.srand) :
    main_verify ram fuel st =
      some (Flow.ram_fail
        { st with srand := xorshift^[i + 1] st.srand, p := st.p + 4 * (i + 1),
                  trace := st.trace ++ verifyTrace ram st.mem st.srand st.p (i + 1) }) := by
  rw [main_verify_advance ram i fuel st (by omega) (by omega) hm]
  obtain ⟨f, hfe⟩ : ∃ f, fuel - i = f + 1 := ⟨fuel - i - 1, by omega⟩
  have hp : st.p + 4 * i < RAM_END := cellAddr_lt hi
  have hb : (ram.load st.mem (st.p + 4 * i) != xorshift (xorshift^[i] st.srand)) = true := by
    rw [Function.iterate_succ_apply'] at hx
    exact bne_iff_ne.mpr hx
  rw [hfe, main_verify, if_pos hp, verifyBody_eq _ _ hp]
  dsimp only
  rw [hb, verifyTrace_succ, Function.iterate_succ_apply' xorshift i]
  have e : st.p + 4 * i + 4 = st.p + 4 * (i + 1) := by omega
  simp only [List.append_assoc, e]

/-! ## A fully functional window -/

/-- After n iterations of the fill loop from cell i, the cells below i are
unchanged and cell j in i..i+n-1 holds the (j-i+1)-th word. -/
theorem fillMem_load (ram : Ram σ) (ebss : Nat) (hfun : Functional ram ebss)
    (n i s : Nat) (m : σ) (hin : i + n ≤ cells ebss) (j : Nat) (hj : j < i + n) :
    ram.load (fillMem ram s (cellAddr ebss i) n m) (cellAddr ebss j) =
      if j < i then ram.load m (cellAddr ebss j) else xorshift^[j - i + 1] s := by
  induction n generalizing i s m with
  | zero => rw [fillMem, if_pos (by omega)]
  | succ n ih =>
    have e : cellAddr ebss i + 4 = cellAddr ebss (i + 1) := by unfold cellAddr; omega
    rw [fillMem, e, ih (i + 1) _ _ (by omega) (by omega),
      hfun m i j _ (by omega) (by omega)]
    by_cases h1 : j < i
    · rw [if_pos (by omega), if_neg (by omega), if_pos h1]
    · by_cases h2 : j = i
      · subst h2
        rw [if_pos (by omega), if_pos rfl, if_neg h1, Nat.sub_self]
        rfl
      · rw [if_neg (by omega), if_neg h1, ← Function.iterate_succ_apply]
        have e2 : (j - (i + 1) + 1).succ = j - i + 1 := by omega
        rw [e2]

/-- After the fill walk over a fully functional window cell j holds the
(j+1)-th word generated from the checkpoint. -/
theorem fill_window (ram : Ram σ) (ebss : Nat) (hfun : Functional ram ebss)
    (s : Nat) (m : σ) (j : Nat) (hj : j < cells ebss) :
    ram.load (fillMem ram s ebss (cells ebss) m) (ebss + 4 * j) = xorshift^[j + 1] s := by
  have h := fillMem_load ram ebss hfun (cells ebss) 0 s m (by omega) j (by omega)
  have e0 : cellAddr ebss 0 = ebss := by unfold cellAddr; omega
  rw [e0, if_neg (by omega)] at h
  exact h

/-- One iteration of the for loop over a fully functional window. -/
theorem main_pass_ok (ram : Ram σ) (ebss : Nat) (hfun : Functional ram ebss)
    (st : Machine σ) :
    main_pass ram ebss st =
      some (Flow.next
        { st with srand := xorshift^[cells ebss] st.srand,
                  p := ebss + 4 * cells ebss,
                  sr := st.srand,
                  mem := fillMem ram st.srand ebss (cells ebss) st.mem,
                  trace := st.trace ++ fillTrace st.srand ebss (cells ebss) ++
                    verifyTrace ram (fillMem ram st.srand ebss (cells ebss) st.mem)
                      st.srand ebss (cells ebss) }) := by
  unfold main_pass
  dsimp only
  rw [main_fill_eq ram (cells ebss) _ (le_refl _)]
  dsimp only
  rw [main_verify_pass ram (cells ebss) _ (le_refl _)
    (fun j hj => fill_window ram ebss hfun st.srand st.mem j hj)]

/-- The for loop over a fully functional window: k iterations end at the loop
head with the generator advanced by k times the window length. -/
theorem main_loop_ok (ram : Ram σ) (ebss : Nat) (hfun : Functional ram ebss)
    (k : Nat) (st : Machine σ) :
    ∃ st', main_loop ram ebss k st = some (Flow.next st') ∧
      st'.srand = xorshift^[k * cells ebss] st.srand := by
  induction k generalizing st with
  | zero => exact ⟨st, rfl, by rw [Nat.zero_mul]; rfl⟩
  | succ k ih =>
    rw [main_loop, main_pass_ok ram ebss hfun st]
    dsimp only
    obtain ⟨st', h1, h2⟩ := ih
      { st with srand := xorshift^[cells ebss] st.srand,
                p := ebss + 4 * cells ebss,
                sr := st.srand,
                mem := fillMem ram st.srand ebss (cells ebss) st.mem,
                trace := st.trace ++ fillTrace st.srand ebss (cells ebss) ++
                  verifyTrace ram (fillMem ram st.srand ebss (cells ebss) st.mem)
                    st.srand ebss (cells ebss) }
    refine ⟨st', h1, ?_⟩
    rw [h2]
    dsimp only
    rw [← Function.iterate_add_apply, Nat.succ_mul]

theorem idealRam_functional (ebss : Nat) : Functional idealRam ebss := by
  intro m i j v _ _
  have e : (cellAddr ebss j = cellAddr ebss i) = (j = i) := by
    unfold cellAddr; apply propext; constructor <;> intro h <;> omega
  show (if cellAddr ebss j = cellAddr ebss i then v else m (cellAddr ebss j)) = _
  simp only [e]
  rfl

/-! ## Traces of the walks -/

theorem readAddrs_append (a b : List Effect) :
    readAddrs (a ++ b) = readAddrs a ++ readAddrs b := by
  induction a with
  | nil => rfl
  | cons e es ih => cases e <;> simp [readAddrs, ih]

theorem readAddrs_fillTrace (s q n : Nat) : readAddrs (fillTrace s q n) = [] := by
  induction n generalizing s q with
  | zero => rfl
  | succ n ih => simp [fillTrace, readAddrs, ih]

theorem writeAddrs_verifyTrace (ram : Ram σ) (m : σ) (s q n : Nat) :
    writeAddrs (verifyTrace ram m s q n) = [] := by
  induction n generalizing s q with
  | zero => rfl
  | succ n ih => simp [verifyTrace, writeAddrs, ih]

theorem readAddrs_verifyTrace (ram : Ram σ) (m : σ) (s q n : Nat) :
    readAddrs (verifyTrace ram m s q n) = (List.range n).map (cellAddr q) := by
  induction n generalizing s with
  | zero => rfl
  | succ n ih =>
    rw [verifyTrace_succ, readAddrs_append, ih, List.range_succ, List.map_append]
    simp [readAddrs, cellAddr]

/-! ## The claims about the test loop -/

/-- C1: over a fully functional window, k consecutive iterations of the
for loop of main, from any machine state, all reach the end of the loop body:
no verify walk executes goto ram_fail, and the generator has advanced by k
times the window length. -/
theorem functional_window_never_fails (ram : Ram σ) (ebss : Nat)
    (hfun : Functional ram ebss) (k : Nat) (st : Machine σ) :
    ∃ st', main_loop ram ebss k st = some (Flow.next st') ∧
      st'.srand = xorshift^[k * cells ebss] st.srand :=
  main_loop_ok ram ebss hfun k st

theorem functional_window_never_fails_witness :
    Functional idealRam EBSS64 ∧
    ∃ st', main_loop idealRam EBSS64 3 (main_init (blank (fun _ : Nat => 0))) =
        some (Flow.next st') ∧
      st'.srand = xorshift^[3 * cells EBSS64] (main_init (blank (fun _ : Nat => 0))).srand :=
  ⟨idealRam_functional EBSS64,
   functional_window_never_fails idealRam EBSS64 (idealRam_functional EBSS64) 3 _⟩

/-- C2: if, when the verify walk starts, cells 0..i-1 of the window hold
the words the generator reproduces and cell i holds anything else, then the
verify walk executes goto ram_fail with p just past cell i, having loaded
exactly the cells 0..i in ascending order and stored to no cell; the device
state is unchanged. -/
theorem verify_fail_fast (ram : Ram σ) (ebss i : Nat) (st : Machine σ)
    (hp : st.p = ebss) (hi : i < cells ebss)
    (hm : ∀ j, j < i → ram.load st.mem (cellAddr ebss j) = xorshift^[j + 1] st.srand)
    (hx : ram.load st.mem (cellAddr ebss i) ≠ xorshift^[i + 1] st.srand) :
    ∃ st', main_verify ram (cells ebss) st = some (Flow.ram_fail st') ∧
      st'.p = cellAddr ebss (i + 1) ∧
      st'.mem = st.mem ∧
      st'.trace = st.trace ++ verifyTrace ram st.mem st.srand ebss (i + 1) ∧
      readAddrs (verifyTrace ram st.mem st.srand ebss (i + 1)) =
        (List.range (i + 1)).map (cellAddr ebss) ∧
      writeAddrs (verifyTrace ram st.mem st.srand ebss (i + 1)) = [] := by
  subst hp
  refine ⟨_, main_verify_fail ram i (cells st.p) st hi (le_refl _) hm hx, rfl, rfl, rfl,
    readAddrs_verifyTrace _ _ _ _ _, writeAddrs_verifyTrace _ _ _ _ _⟩

theorem verify_fail_fast_witness :
    cells EBSS64 = 64 ∧
    ∃ st', main_verify idealRam (cells EBSS64) faulty37 = some (Flow.ram_fail st') ∧
      st'.p = cellAddr EBSS64 38 ∧
      st'.mem = faulty37.mem ∧
      st'.trace = faulty37.trace ++ verifyTrace idealRam faulty37.mem faulty37.srand EBSS64 38 ∧
      readAddrs (verifyTrace idealRam faulty37.mem faulty37.srand EBSS64 38) =
        (List.range 38).map (cellAddr EBSS64) ∧
      writeAddrs (verifyTrace idealRam faulty37.mem faulty37.srand EBSS64 38) = [] :=
  ⟨by decide, verify_fail_fast idealRam EBSS64 37 faulty37 rfl (by decide) (by decide!)
    (by decide!)⟩

/-- The first iteration of the for loop over a non-empty window whose cell 0
does not return the first generated word. -/
theorem main_pass_first_cell_bad (ram : Ram σ) (ebss : Nat) (st : Machine σ)
    (hne : 0 < cells ebss)
    (hx : ram.load (fillMem ram st.srand ebss (cells ebss) st.mem) ebss ≠ xorshift st.srand) :
    main_pass ram ebss st =
      some (Flow.ram_fail
        { st with srand := xorshift st.srand,
                  p := ebss + 4 * (0 + 1),
                  sr := st.srand,
                  mem := fillMem ram st.srand ebss (cells ebss) st.mem,
                  trace := st.trace ++ fillTrace st.srand ebss (cells ebss) ++
                    verifyTrace ram (fillMem ram st.srand ebss (cells ebss) st.mem)
                      st.srand ebss (0 + 1) }) := by
  unfold main_pass
  dsimp only
  rw [main_fill_eq ram (cells ebss) _ (le_refl _)]
  dsimp only
  rw [main_verify_fail ram 0 (cells ebss) _ hne (le_refl _)
    (fun j hj => absurd hj (Nat.not_lt_zero j)) hx]
  rfl

/-- C3: over a non-empty window of a RAM whose every load returns the
fixed word c, whatever was stored, with c different from the first word
generated from the current state, the first iteration of the for loop
executes goto ram_fail at cell 0: after the fill walk the verify walk makes
one load, at the window start, and one call of rand, and p is just past
cell 0. -/
theorem dead_ram_fails_at_first_cell (ram : Ram σ) (ebss c : Nat) (st : Machine σ)
    (hne : 0 < cells ebss) (hdead : ∀ m a, ram.load m a = c)
    (hc : c ≠ xorshift st.srand) :
    ∃ st', main_pass ram ebss st = some (Flow.ram_fail st') ∧
      st'.p = cellAddr ebss 1 ∧
      st'.trace = st.trace ++ fillTrace st.srand ebss (cells ebss) ++
        [Effect.read ebss c, Effect.rand (xorshift st.srand)] ∧
      readAddrs st'.trace = readAddrs st.trace ++ [cellAddr ebss 0] := by
  refine ⟨_, main_pass_first_cell_bad ram ebss st hne (by rw [hdead]; exact hc), rfl, ?_, ?_⟩
  · dsimp only
    rw [verifyTrace, verifyTrace, hdead]
  · dsimp only
    rw [readAddrs_append, readAddrs_append, readAddrs_fillTrace, readAddrs_verifyTrace,
      List.append_nil]
    rfl

theorem dead_ram_fails_at_first_cell_witness :
    0 < cells (RAM_END - 8) ∧
    ∃ st', main_pass (deadRam 7) (RAM_END - 8) (main_init (blank ())) =
        some (Flow.ram_fail st') ∧
      st'.p = cellAddr (RAM_END - 8) 1 ∧
      st'.trace = (main_init (blank ())).trace ++
        fillTrace (main_init (blank ())).srand (RAM_END - 8) (cells (RAM_END - 8)) ++
        [Effect.read (RAM_END - 8) 7, Effect.rand (xorshift (main_init (blank ())).srand)] ∧
      readAddrs st'.trace =
        readAddrs (main_init (blank ())).trace ++ [cellAddr (RAM_END - 8) 0] :=
  ⟨by decide, dead_ram_fails_at_first_cell (deadRam 7) (RAM_END - 8) 7 (main_init (blank ()))
    (by decide) (fun _ _ => rfl) (by decide)⟩

/-! ## rand -/

theorem xorshift_eq_next_spec (x : Nat) : xorshift x = next_spec x := by
  simp only [xorshift, next_spec, Nat.shiftLeft_eq, Nat.shiftRight_eq_div_pow]
  rfl

theorem xorshift_lt (x : Nat) (h : x < 2 ^ 32) : xorshift x < 2 ^ 32 := by
  unfold xorshift
  have h1 : x ^^^ ((x <<< 13) % 2 ^ 32) < 2 ^ 32 :=
    Nat.xor_lt_two_pow h (Nat.mod_lt _ (by norm_num))
  have h2 : (x ^^^ ((x <<< 13) % 2 ^ 32)) >>> 17 < 2 ^ 32 := by
    rw [Nat.shiftRight_eq_div_pow]
    exact lt_of_le_of_lt (Nat.div_le_self _ _) h1
  have h3 := Nat.xor_lt_two_pow h1 h2
  exact Nat.xor_lt_two_pow h3 (Nat.mod_lt _ (by norm_num))

/-- C4: for a 32-bit generator state, rand returns the word that the three
steps of the spec compute, the returned word is a 32-bit word, it is the new
value of srand, and apart from srand only the ghost trace changes, by the
record of this one call. -/
theorem rand_contract (st : Machine σ) (h : st.srand < 2 ^ 32) :
    (rand st).1 = next_spec st.srand ∧ (rand st).2.srand = (rand st).1 ∧
    (rand st).1 < 2 ^ 32 ∧
    (rand st).2 = { st with srand := next_spec st.srand,
                            trace := st.trace ++ [Effect.rand (next_spec st.srand)] } := by
  refine ⟨?_, rfl, ?_, ?_⟩
  · exact xorshift_eq_next_spec _
  · exact xorshift_lt _ h
  · simp only [rand, xorshift_eq_next_spec]

theorem rand_contract_witness :
    (main_init (blank ())).srand < 2 ^ 32 ∧
    (rand (main_init (blank ()))).1 = next_spec (main_init (blank ())).srand ∧
    (rand (main_init (blank ()))).2.srand = (rand (main_init (blank ()))).1 ∧
    (rand (main_init (blank ()))).1 < 2 ^ 32 ∧
    (rand (main_init (blank ()))).2 =
      { main_init (blank ()) with
        srand := next_spec (main_init (blank ())).srand,
        trace := (main_init (blank ())).trace ++
          [Effect.rand (next_spec (main_init (blank ())).srand)] } :=
  ⟨by decide, rand_contract (main_init (blank ())) (by decide)⟩

/-! ## The empty window -/

theorem main_pass_empty (ram : Ram σ) (ebss : Nat) (st : Machine σ) (h : RAM_END ≤ ebss) :
    main_pass ram ebss st = some (Flow.next { st with p := ebss, sr := st.srand }) := by
  have hp : ¬ ebss < RAM_END := by omega
  unfold main_pass
  dsimp only
  rw [cells_of_ge h, main_fill, if_neg hp]
  dsimp only
  rw [main_verify, if_neg hp]

/-- C9: when the window start is not below the window end, one iteration of
the for loop reaches the end of the loop body, having only set p to the window
start and sr to srand: srand, the device state and the trace (no load, no
store, no call of rand) are unchanged; and so after any number k of
iterations. -/
theorem empty_window_passes (ram : Ram σ) (ebss : Nat) (st : Machine σ)
    (h : RAM_END ≤ ebss) (k : Nat) :
    cells ebss = 0 ∧
    main_pass ram ebss st = some (Flow.next { st with p := ebss, sr := st.srand }) ∧
    ∃ st', main_loop ram ebss k st = some (Flow.next st') ∧
      st'.srand = st.srand ∧ st'.mem = st.mem ∧ st'.trace = st.trace := by
  refine ⟨cells_of_ge h, main_pass_empty ram ebss st h, ?_⟩
  induction k generalizing st with
  | zero => exact ⟨st, rfl, rfl, rfl, rfl⟩
  | succ k ih =>
    rw [main_loop, main_pass_empty ram ebss st h]
    exact ih _

theorem empty_window_passes_witness :
    RAM_END ≤ RAM_END ∧ cells RAM_END = 0 ∧
    main_pass idealRam RAM_END (main_init (blank (fun _ : Nat => 0))) =
      some (Flow.next { main_init (blank (fun _ : Nat => 0)) with
                        p := RAM_END, sr := (main_init (blank (fun _ : Nat => 0))).srand }) ∧
    ∃ st', main_loop idealRam RAM_END 5 (main_init (blank (fun _ : Nat => 0))) =
        some (Flow.next st') ∧
      st'.srand = (main_init (blank (fun _ : Nat => 0))).srand ∧
      st'.mem = (main_init (blank (fun _ : Nat => 0))).mem ∧
      st'.trace = (main_init (blank (fun _ : Nat => 0))).trace :=
  ⟨le_refl _, empty_window_passes idealRam RAM_END _ (le_refl _) 5⟩

/-! ## The heartbeat -/

theorem IRQ_tim4_eq (st : Machine σ) :
    IRQ_tim4 st =
      { st with
        tim4_sr := 0
        x := st.x ^^^ 1
        pins := fun q n =>
          if q = Port.gpioc ∧ n = 13 then (if st.x ≠ 0 then HIGH else LOW)
          else if q = Port.gpiob ∧ n = 12 then (if st.x ≠ 0 then HIGH else LOW)
          else st.pins q n
        trace := st.trace ++ [Effect.tim4_sr 0, Effect.gpio Port.gpiob 12 st.x,
          Effect.gpio Port.gpioc 13 st.x, Effect.usart1_dr 0x2E] } := by
  simp [IRQ_tim4, gpio_write_pin]

theorem serial_append (a b : List Effect) : serial (a ++ b) = serial a ++ serial b := by
  induction a with
  | nil => rfl
  | cons e es ih => cases e <;> simp [serial, ih]

/-- C6: after n firings of IRQ_tim4 from the state main sets up (x = 0,
both LED pins HIGH), pins B12 and C13 both drive LOW when n is odd and HIGH
when n is even (so HIGH for n = 0), the phase flag x is n mod 2, and the bytes
stored to the USART1 data register are n copies of 0x2E, the character '.'. -/
theorem heartbeat_after_firings (boot : Machine σ) (n : Nat) :
    (IRQ_tim4^[n] (main_init boot)).pins Port.gpiob 12 = (if n % 2 = 1 then LOW else HIGH) ∧
    (IRQ_tim4^[n] (main_init boot)).pins Port.gpioc 13 = (if n % 2 = 1 then LOW else HIGH) ∧
    (IRQ_tim4^[n] (main_init boot)).x = n % 2 ∧
    serial (IRQ_tim4^[n] (main_init boot)).trace = List.replicate n 0x2E := by
  induction n with
  | zero =>
    refine ⟨?_, ?_, rfl, rfl⟩ <;>
      simp [main_init, gpio_configure_pin, HIGH]
  | succ n ih =>
    obtain ⟨_, _, hx, hs⟩ := ih
    rw [Function.iterate_succ_apply', IRQ_tim4_eq]
    dsimp only
    rw [hx, serial_append, hs, List.replicate_succ']
    rcases Nat.mod_two_eq_zero_or_one n with h | h
    · have h' : (n + 1) % 2 = 1 := by omega
      rw [h, h']
      simp [serial, LOW]
    · have h' : (n + 1) % 2 = 0 := by omega
      rw [h, h']
      simp [serial, HIGH]

/-! ## The failure latch -/

theorem ram_fail_eq (st : Machine σ) :
    ram_fail st =
      { st with
        irq_enabled := false
        pins := fun q n =>
          if q = Port.gpioc ∧ n = 13 then LOW
          else if q = Port.gpiob ∧ n = 12 then LOW
          else st.pins q n
        trace := st.trace ++ [Effect.irq_disable, Effect.gpio Port.gpiob 12 LOW,
          Effect.gpio Port.gpioc 13 LOW] } := by
  simp [ram_fail, gpio_write_pin, IRQ_global_disable, LOW]

/-- C8, as stated, fails: the level the latch drives on pin B12 is the level
IRQ_tim4 drives on it in its first firing after startup (phase flag x = 0). -/
theorem latch_level_not_distinct :
    ¬ ((ram_fail (main_init (blank ()))).pins Port.gpiob 12 ≠
          (IRQ_tim4 (main_init (blank ()))).pins Port.gpiob 12 ∧
       (ram_fail (main_init (blank ()))).pins Port.gpiob 12 ≠
          (IRQ_tim4 (IRQ_tim4 (main_init (blank ())))).pins Port.gpiob 12) := by
  decide

/-- C8, amended: the latch drives LOW on pins B12 and C13; IRQ_tim4 drives
LOW on both pins when its phase flag x is zero and HIGH when it is not; LOW
and HIGH differ. So the latch level equals the level of the lit heartbeat
phase and differs from the level of the unlit phase. -/
theorem latch_level (st hb : Machine σ) :
    (ram_fail st).pins Port.gpiob 12 = LOW ∧ (ram_fail st).pins Port.gpioc 13 = LOW ∧
    (hb.x = 0 → (IRQ_tim4 hb).pins Port.gpiob 12 = LOW ∧
                (IRQ_tim4 hb).pins Port.gpioc 13 = LOW) ∧
    (hb.x ≠ 0 → (IRQ_tim4 hb).pins Port.gpiob 12 = HIGH ∧
                (IRQ_tim4 hb).pins Port.gpioc 13 = HIGH) ∧
    LOW ≠ HIGH := by
  refine ⟨?_, ?_, ?_, ?_, by decide⟩
  · rw [ram_fail_eq]; simp
  · rw [ram_fail_eq]; simp
  · intro h; rw [IRQ_tim4_eq]; simp [h]
  · intro h; rw [IRQ_tim4_eq]; simp [h]

theorem latch_level_witness :
    (main_init (blank ())).x = 0 ∧ (IRQ_tim4 (main_init (blank ()))).x ≠ 0 ∧
    (IRQ_tim4 (main_init (blank ()))).pins Port.gpiob 12 = LOW ∧
    (IRQ_tim4 (IRQ_tim4 (main_init (blank ())))).pins Port.gpiob 12 = HIGH ∧
    (ram_fail (main_init (blank ()))).pins Port.gpiob 12 = LOW :=
  ⟨by decide, by decide,
   ((latch_level (main_init (blank ())) (main_init (blank ()))).2.2.1 (by decide)).1,
   ((latch_level (main_init (blank ())) (IRQ_tim4 (main_init (blank ())))).2.2.2.1
      (by decide)).1,
   (latch_level (main_init (blank ())) (main_init (blank ()))).1⟩

theorem step_latched (ram : Ram σ) (ebss : Nat) (s : Sys σ) (hpc : s.pc = Pc.hang)
    (hirq : s.m.irq_enabled = false) (ev : Event) :
    (step ram ebss s ev).pc = Pc.hang ∧
    (step ram ebss s ev).m = { s.m with tim4_sr := (step ram ebss s ev).m.tim4_sr } := by
  cases ev with
  | cpu =>
    have : cpuStep ram ebss s = s := by unfold cpuStep; rw [hpc]
    rw [step, this]
    exact ⟨hpc, rfl⟩
  | tim4 =>
    have : tim4_overflow s = { s with m := { s.m with tim4_sr := s.m.tim4_sr ||| 1 } } := by
      unfold tim4_overflow
      simp [hirq]
    rw [step, this]
    exact ⟨hpc, rfl⟩

theorem run_latched (ram : Ram σ) (ebss : Nat) (s : Sys σ) (hpc : s.pc = Pc.hang)
    (hirq : s.m.irq_enabled = false) (evs : List Event) :
    (run ram ebss s evs).pc = Pc.hang ∧
    (run ram ebss s evs).m = { s.m with tim4_sr := (run ram ebss s evs).m.tim4_sr } := by
  induction evs generalizing s with
  | nil => exact ⟨hpc, rfl⟩
  | cons e es ih =>
    obtain ⟨h1, h2⟩ := step_latched ram ebss s hpc hirq e
    have hirq' : (step ram ebss s e).m.irq_enabled = false := by rw [h2]; exact hirq
    obtain ⟨h3, h4⟩ := ih (step ram ebss s e) h1 hirq'
    have hr : run ram ebss s (e :: es) = run ram ebss (step ram ebss s e) es := rfl
    rw [hr]
    refine ⟨h3, ?_⟩
    rw [h4, h2]

/-- C7: from a state in the idle loop of ram_fail with interrupts disabled,
after any sequence of timer periods and steps of main the program is still in
the idle loop with interrupts disabled, and the machine is as it was, up to
the TIM4 status register: pin levels, phase flag x, trace and hence serial
output, srand and the RAM are unchanged. -/
theorem latch_is_final (ram : Ram σ) (ebss : Nat) (s : Sys σ) (hpc : s.pc = Pc.hang)
    (hirq : s.m.irq_enabled = false) (evs : List Event) :
    (run ram ebss s evs).pc = Pc.hang ∧
    (run ram ebss s evs).m.irq_enabled = false ∧
    (run ram ebss s evs).m.pins = s.m.pins ∧
    (run ram ebss s evs).m.x = s.m.x ∧
    (run ram ebss s evs).m.trace = s.m.trace ∧
    serial (run ram ebss s evs).m.trace = serial s.m.trace ∧
    (run ram ebss s evs).m = { s.m with tim4_sr := (run ram ebss s evs).m.tim4_sr } := by
  obtain ⟨h1, h2⟩ := run_latched ram ebss s hpc hirq evs
  refine ⟨h1, ?_, ?_, ?_, ?_, ?_, h2⟩
  · rw [h2]; exact hirq
  · rw [h2]
  · rw [h2]
  · rw [h2]
  · rw [h2]

theorem latch_is_final_witness :
    latchedExample.pc = Pc.hang ∧ latchedExample.m.irq_enabled = false ∧
    (run (deadRam 7) (RAM_END - 4) latchedExample
      [Event.tim4, Event.cpu, Event.tim4, Event.tim4]).m.pins = latchedExample.m.pins ∧
    serial (run (deadRam 7) (RAM_END - 4) latchedExample
      [Event.tim4, Event.cpu, Event.tim4, Event.tim4]).m.trace =
        serial latchedExample.m.trace :=
  ⟨by decide, by decide,
   (latch_is_final (deadRam 7) (RAM_END - 4) latchedExample (by decide) (by decide)
      [Event.tim4, Event.cpu, Event.tim4, Event.tim4]).2.2.1,
   (latch_is_final (deadRam 7) (RAM_END - 4) latchedExample (by decide) (by decide)
      [Event.tim4, Event.cpu, Event.tim4, Event.tim4]).2.2.2.2.2.1⟩

/-! ## The transform of rand is linear over GF(2) -/

theorem shl_mod_xor (a b k : Nat) :
    ((a ^^^ b) <<< k) % 2 ^ 32 = ((a <<< k) % 2 ^ 32) ^^^ ((b <<< k) % 2 ^ 32) := by
  apply Nat.eq_of_testBit_eq
  intro i
  simp only [Nat.testBit_mod_two_pow, Nat.testBit_shiftLeft, Nat.testBit_xor]
  cases decide (i < 32) <;> cases decide (i ≥ k) <;> simp

theorem shr_xor (a b k : Nat) : (a ^^^ b) >>> k = (a >>> k) ^^^ (b >>> k) := by
  apply Nat.eq_of_testBit_eq
  intro i
  simp only [Nat.testBit_shiftRight, Nat.testBit_xor]

theorem xor4 (p q r s : Nat) : (p ^^^ q) ^^^ (r ^^^ s) = (p ^^^ r) ^^^ (q ^^^ s) := by
  rw [Nat.xor_assoc, Nat.xor_assoc, ← Nat.xor_assoc q r s, Nat.xor_comm q r, Nat.xor_assoc]

theorem xorshift_xor (a b : Nat) : xorshift (a ^^^ b) = xorshift a ^^^ xorshift b := by
  have h1 : ∀ k a b : Nat, (a ^^^ b) ^^^ (((a ^^^ b) <<< k) % 2 ^ 32) =
      (a ^^^ ((a <<< k) % 2 ^ 32)) ^^^ (b ^^^ ((b <<< k) % 2 ^ 32)) := by
    intro k a b; rw [shl_mod_xor, xor4]
  have h2 : ∀ a b : Nat, (a ^^^ b) ^^^ ((a ^^^ b) >>> 17) =
      (a ^^^ (a >>> 17)) ^^^ (b ^^^ (b >>> 17)) := by
    intro a b; rw [shr_xor, xor4]
  simp only [xorshift]
  rw [h1 13 a b]
  generalize a ^^^ ((a <<< 13) % 2 ^ 32) = a1
  generalize b ^^^ ((b <<< 13) % 2 ^ 32) = b1
  rw [h2 a1 b1]
  generalize a1 ^^^ (a1 >>> 17) = a2
  generalize b1 ^^^ (b1 >>> 17) = b2
  rw [h1 5 a2 b2]

theorem xorshift_zero : xorshift 0 = 0 := by decide

/-! ## Matrices -/

theorem mapply_zero (m : List Nat) : mapply m 0 = 0 := by
  induction m with
  | nil => rfl
  | cons c cs ih => simp [mapply, ih]

theorem bit_mul_xor (a b c : Nat) :
    (a ^^^ b) % 2 * c = (a % 2 * c) ^^^ (b % 2 * c) := by
  rw [Nat.xor_mod_two_eq]
  rcases Nat.mod_two_eq_zero_or_one a with ha | ha <;>
    rcases Nat.mod_two_eq_zero_or_one b with hb | hb <;>
    simp [Nat.add_mod, ha, hb]

theorem mapply_xor (m : List Nat) (a b : Nat) :
    mapply m (a ^^^ b) = mapply m a ^^^ mapply m b := by
  induction m generalizing a b with
  | nil => simp [mapply]
  | cons c cs ih =>
    simp only [mapply]
    rw [Nat.xor_div_two, ih, bit_mul_xor, xor4]

theorem mapply_bit_mul (m : List Nat) (x c : Nat) :
    mapply m (x % 2 * c) = x % 2 * mapply m c := by
  rcases Nat.mod_two_eq_zero_or_one x with h | h <;> simp [h, mapply_zero]

theorem mapply_mmul (a b : List Nat) (x : Nat) :
    mapply (mmul a b) x = mapply a (mapply b x) := by
  induction b generalizing x with
  | nil => simp [mmul, mapply, mapply_zero]
  | cons c cs ih =>
    have ih' : mapply (List.map (mapply a) cs) (x / 2) = mapply a (mapply cs (x / 2)) := ih _
    simp only [mmul, List.map_cons, mapply]
    rw [mapply_xor, mapply_bit_mul, ih']

/-- Two additive maps that agree on the one-bit words below 2 ^ n agree on
all words below 2 ^ n. -/
theorem basis_ext (f g : Nat → Nat)
    (hf : ∀ a b, f (a ^^^ b) = f a ^^^ f b) (hg : ∀ a b, g (a ^^^ b) = g a ^^^ g b)
    (n : Nat) (hb : ∀ i, i < n → f (2 ^ i) = g (2 ^ i)) (x : Nat) (hx : x < 2 ^ n) :
    f x = g x := by
  have f0 : f 0 = 0 := by
    have := hf 0 0
    simpa only [Nat.xor_self] using this
  have g0 : g 0 = 0 := by
    have := hg 0 0
    simpa only [Nat.xor_self] using this
  induction n generalizing x with
  | zero =>
    have : x = 0 := by simpa using hx
    rw [this, f0, g0]
  | succ n ih =>
    by_cases hlt : x < 2 ^ n
    · exact ih (fun i hi => hb i (by omega)) x hlt
    · have hy : x - 2 ^ n < 2 ^ n := by
        rw [Nat.pow_succ] at hx; omega
      have hxe : x = 2 ^ n ^^^ (x - 2 ^ n) := by
        have h1 : x = 2 ^ n + (x - 2 ^ n) := by omega
        have h2 : 2 ^ n ^^^ (x - 2 ^ n) = 2 ^ n + (x - 2 ^ n) := by
          apply Nat.eq_of_testBit_eq
          intro i
          rw [Nat.testBit_xor]
          rcases Nat.lt_trichotomy i n with h | h | h
          · rw [Nat.testBit_two_pow_add_gt h, Nat.testBit_two_pow_of_ne (by omega)]
            simp
          · subst h
            rw [Nat.testBit_two_pow_add_eq, Nat.testBit_two_pow_self,
              Nat.testBit_lt_two_pow hy]
            rfl
          · have hbig : 2 ^ n + (x - 2 ^ n) < 2 ^ i := by
              have : 2 ^ (n + 1) ≤ 2 ^ i := Nat.pow_le_pow_right (by omega) (by omega)
              omega
            have hsmall : x - 2 ^ n < 2 ^ i := by omega
            rw [Nat.testBit_lt_two_pow hbig, Nat.testBit_lt_two_pow hsmall,
              Nat.testBit_two_pow_of_ne (by omega)]
            rfl
        rw [h2]; exact h1
      rw [hxe, hf, hg, hb n (by omega),
        ih (fun i hi => hb i (by omega)) (x - 2 ^ n) hy]

theorem mapply_ident (x : Nat) (hx : x < 2 ^ 32) : mapply ident x = x :=
  basis_ext (mapply ident) id (mapply_xor ident) (fun _ _ => rfl) 32 (by decide) x hx

theorem mapply_tmat (x : Nat) (hx : x < 2 ^ 32) : mapply tmat x = xorshift x :=
  basis_ext (mapply tmat) xorshift (mapply_xor tmat) xorshift_xor 32 (by decide) x hx

theorem iterate_lt (f : Nat → Nat) (hf : ∀ x, x < 2 ^ 32 → f x < 2 ^ 32) (n x : Nat)
    (hx : x < 2 ^ 32) : f^[n] x < 2 ^ 32 := by
  induction n generalizing x with
  | zero => exact hx
  | succ n ih => rw [Function.iterate_succ_apply]; exact ih _ (hf x hx)

/-- If a matrix acts as f on 32-bit words, its power by repeated squaring
acts as the iterate of f. -/
theorem mapply_mpow (m : List Nat) (f : Nat → Nat) (hf : ∀ x, x < 2 ^ 32 → f x < 2 ^ 32)
    (hm : ∀ x, x < 2 ^ 32 → mapply m x = f x) (fuel e : Nat) (he : e < 2 ^ fuel)
    (x : Nat) (hx : x < 2 ^ 32) : mapply (mpow m fuel e) x = f^[e] x := by
  induction fuel generalizing e x with
  | zero =>
    have : e = 0 := by simpa using he
    subst this
    rw [mpow]; exact mapply_ident x hx
  | succ fuel ih =>
    rw [mpow]
    by_cases h0 : e = 0
    · subst h0; rw [if_pos rfl]; exact mapply_ident x hx
    · have hh : e / 2 < 2 ^ fuel := by rw [Nat.pow_succ] at he; omega
      rw [if_neg h0]
      by_cases h1 : e % 2 = 1
      · rw [if_pos h1, mapply_mmul, mapply_mmul, hm x hx, ih _ hh _ (hf x hx),
          ih _ hh _ (iterate_lt f hf _ _ (hf x hx)), ← Function.iterate_add_apply,
          ← Function.iterate_succ_apply]
        congr 1; omega
      · rw [if_neg h1, mapply_mmul, ih _ hh _ hx, ih _ hh _ (iterate_lt f hf _ _ hx),
          ← Function.iterate_add_apply]
        congr 1; omega

theorem mapply_tpow (n x : Nat) (hn : n < 2 ^ 32) (hx : x < 2 ^ 32) :
    mapply (tpow n) x = xorshift^[n] x :=
  mapply_mpow tmat xorshift xorshift_lt mapply_tmat 32 n hn x hx

theorem length_mpow (m : List Nat) (hm : m.length = 32) (fuel e : Nat) :
    (mpow m fuel e).length = 32 := by
  induction fuel generalizing e with
  | zero => rw [mpow]; rfl
  | succ fuel ih =>
    rw [mpow]
    split
    · rfl
    · split
      · rw [mmul, List.length_map, hm]
      · rw [mmul, List.length_map, ih]

theorem bit_mul_xor_right (x c d : Nat) :
    x % 2 * (c ^^^ d) = (x % 2 * c) ^^^ (x % 2 * d) := by
  rcases Nat.mod_two_eq_zero_or_one x with h | h <;> simp [h]

theorem mapply_zipWith_xor (a b : List Nat) (h : a.length = b.length) (x : Nat) :
    mapply (List.zipWith (fun p q => p ^^^ q) a b) x = mapply a x ^^^ mapply b x := by
  induction a generalizing b x with
  | nil =>
    cases b with
    | nil => simp [mapply]
    | cons d ds => simp at h
  | cons c cs ih =>
    cases b with
    | nil => simp at h
    | cons d ds =>
      have hl : cs.length = ds.length := by simpa using h
      simp only [List.zipWith_cons_cons, mapply]
      rw [ih ds hl, bit_mul_xor_right, xor4]

theorem mapply_fixmat (n x : Nat) (hn : n < 2 ^ 32) (hx : x < 2 ^ 32) :
    mapply (fixmat n) x = xorshift^[n] x ^^^ x := by
  have hl : (tpow n).length = ident.length := by
    rw [tpow, length_mpow tmat rfl]; rfl
  rw [fixmat, addI, mapply_zipWith_xor _ _ hl, mapply_tpow n x hn hx, mapply_ident x hx]

/-- A left inverse of the matrix of n applications plus identity shows that
n applications of the transform fix no 32-bit word but zero. -/
theorem fix_free (n : Nat) (hn : n < 2 ^ 32)
    (hc : mmul (minv (fixmat n)) (fixmat n) = ident)
    (x : Nat) (hx : x < 2 ^ 32) (hfix : xorshift^[n] x = x) : x = 0 := by
  have h1 : mapply (fixmat n) x = 0 := by
    rw [mapply_fixmat n x hn hx, hfix, Nat.xor_self]
  have h2 := mapply_mmul (minv (fixmat n)) (fixmat n) x
  rw [hc, mapply_ident x hx, h1, mapply_zero] at h2
  exact h2

/-! ## The kernel-checked matrix computations -/

theorem tpow_period : tpow PERIOD = ident := by decide!

theorem cert_3 : mmul (minv (fixmat (PERIOD / 3))) (fixmat (PERIOD / 3)) = ident := by decide!

theorem cert_5 : mmul (minv (fixmat (PERIOD / 5))) (fixmat (PERIOD / 5)) = ident := by decide!

theorem cert_17 : mmul (minv (fixmat (PERIOD / 17))) (fixmat (PERIOD / 17)) = ident := by
  decide!

theorem cert_257 : mmul (minv (fixmat (PERIOD / 257))) (fixmat (PERIOD / 257)) = ident := by
  decide!

theorem cert_65537 :
    mmul (minv (fixmat (PERIOD / 65537))) (fixmat (PERIOD / 65537)) = ident := by
  decide!

/-! ## The period of rand -/

theorem PERIOD_lt : PERIOD < 2 ^ 32 := by decide

/-- PERIOD applications of the transform return every 32-bit word. -/
theorem xorshift_period (x : Nat) (hx : x < 2 ^ 32) : xorshift^[PERIOD] x = x := by
  rw [← mapply_tpow PERIOD x PERIOD_lt hx, tpow_period, mapply_ident x hx]

theorem prime_dvd_PERIOD (p : Nat) (hp : p.Prime) (h : p ∣ PERIOD) :
    p = 3 ∨ p = 5 ∨ p = 17 ∨ p = 257 ∨ p = 65537 := by
  have e : PERIOD = 3 * 5 * 17 * 257 * 65537 := by decide
  rw [e] at h
  have p3 : Nat.Prime 3 := by norm_num
  have p5 : Nat.Prime 5 := by norm_num
  have p17 : Nat.Prime 17 := by norm_num
  have p257 : Nat.Prime 257 := by norm_num
  have p65537 : Nat.Prime 65537 := by norm_num
  rcases (Nat.Prime.dvd_mul hp).1 h with h | h
  · rcases (Nat.Prime.dvd_mul hp).1 h with h | h
    · rcases (Nat.Prime.dvd_mul hp).1 h with h | h
      · rcases (Nat.Prime.dvd_mul hp).1 h with h | h
        · exact Or.inl ((Nat.prime_dvd_prime_iff_eq hp p3).1 h)
        · exact Or.inr (Or.inl ((Nat.prime_dvd_prime_iff_eq hp p5).1 h))
      · exact Or.inr (Or.inr (Or.inl ((Nat.prime_dvd_prime_iff_eq hp p17).1 h)))
    · exact Or.inr (Or.inr (Or.inr (Or.inl ((Nat.prime_dvd_prime_iff_eq hp p257).1 h))))
  · exact Or.inr (Or.inr (Or.inr (Or.inr ((Nat.prime_dvd_prime_iff_eq hp p65537).1 h))))

/-- No non-zero 32-bit word returns to itself in fewer than PERIOD
applications of the transform. -/
theorem xorshift_no_short_cycle (x : Nat) (hx : x < 2 ^ 32) (h0 : x ≠ 0)
    (n : Nat) (hn0 : 0 < n) (hn : n < PERIOD) : xorshift^[n] x ≠ x := by
  intro hfix
  have hper : Function.IsPeriodicPt xorshift PERIOD x := xorshift_period x hx
  have hg : Function.IsPeriodicPt xorshift (n.gcd PERIOD) x :=
    Function.IsPeriodicPt.gcd hfix hper
  have hdP : n.gcd PERIOD ∣ PERIOD := Nat.gcd_dvd_right _ _
  have hdn : n.gcd PERIOD ≤ n := Nat.le_of_dvd hn0 (Nat.gcd_dvd_left _ _)
  have hdpos : 0 < n.gcd PERIOD := Nat.gcd_pos_of_pos_left _ hn0
  generalize n.gcd PERIOD = d at hg hdP hdn hdpos
  obtain ⟨q, hq⟩ := hdP
  have hq1 : q ≠ 1 := by
    intro h1; rw [h1, Nat.mul_one] at hq; omega
  obtain ⟨p, hp, r, hr⟩ := Nat.exists_prime_and_dvd hq1
  have hpP : p ∣ PERIOD := ⟨d * r, by rw [hq, hr]; ring⟩
  have hdiv : PERIOD / p = d * r :=
    Nat.div_eq_of_eq_mul_right hp.pos (by rw [hq, hr]; ring)
  have hfixp : xorshift^[PERIOD / p] x = x :=
    Function.IsPeriodicPt.trans_dvd hg ⟨r, hdiv⟩
  have hlt : PERIOD / p < 2 ^ 32 := lt_of_le_of_lt (Nat.div_le_self _ _) PERIOD_lt
  rcases prime_dvd_PERIOD p hp hpP with h | h | h | h | h <;> subst h
  · exact h0 (fix_free _ hlt cert_3 x hx hfixp)
  · exact h0 (fix_free _ hlt cert_5 x hx hfixp)
  · exact h0 (fix_free _ hlt cert_17 x hx hfixp)
  · exact h0 (fix_free _ hlt cert_257 x hx hfixp)
  · exact h0 (fix_free _ hlt cert_65537 x hx hfixp)

/-- The transform maps non-zero 32-bit words to non-zero words. -/
theorem xorshift_ne_zero (x : Nat) (hx : x < 2 ^ 32) (h0 : x ≠ 0) : xorshift x ≠ 0 := by
  intro hz
  have h := xorshift_period x hx
  have e : PERIOD = (PERIOD - 1) + 1 := by decide
  rw [e, Function.iterate_succ_apply, hz, Function.iterate_fixed xorshift_zero] at h
  exact h0 h.symm

/-- The transform is injective on 32-bit words. -/
theorem xorshift_injective (x y : Nat) (hx : x < 2 ^ 32) (hy : y < 2 ^ 32)
    (h : xorshift x = xorshift y) : x = y := by
  have h1 := xorshift_period x hx
  have h2 := xorshift_period y hy
  have e : PERIOD = (PERIOD - 1) + 1 := by decide
  rw [e, Function.iterate_succ_apply] at h1 h2
  rw [← h1, ← h2, h]

/-! ## The generator state in the running system -/

/-- The invariant of the generator state: srand is a non-zero 32-bit word,
and so is the checkpoint sr while it is live. -/
theorem srand_invariant (ram : Ram σ) (ebss : Nat) (s : Sys σ) (ev : Event)
    (h : (s.m.srand ≠ 0 ∧ s.m.srand < 2 ^ 32) ∧
      ((s.pc = Pc.fill ∨ s.pc = Pc.restore) → s.m.sr ≠ 0 ∧ s.m.sr < 2 ^ 32)) :
    ((step ram ebss s ev).m.srand ≠ 0 ∧ (step ram ebss s ev).m.srand < 2 ^ 32) ∧
      (((step ram ebss s ev).pc = Pc.fill ∨ (step ram ebss s ev).pc = Pc.restore) →
        (step ram ebss s ev).m.sr ≠ 0 ∧ (step ram ebss s ev).m.sr < 2 ^ 32) := by
  obtain ⟨⟨h0, h32⟩, hsr⟩ := h
  have hx : xorshift s.m.srand ≠ 0 ∧ xorshift s.m.srand < 2 ^ 32 :=
    ⟨xorshift_ne_zero _ h32 h0, xorshift_lt _ h32⟩
  cases ev with
  | tim4 =>
    have e1 : (step ram ebss s Event.tim4).pc = s.pc := by
      simp only [step, tim4_overflow]; split <;> rfl
    have e2 : (step ram ebss s Event.tim4).m.srand = s.m.srand := by
      simp only [step, tim4_overflow]; split <;> rfl
    have e3 : (step ram ebss s Event.tim4).m.sr = s.m.sr := by
      simp only [step, tim4_overflow]; split <;> rfl
    rw [e1, e2, e3]
    exact ⟨⟨h0, h32⟩, hsr⟩
  | cpu =>
    rcases s with ⟨pc, m⟩
    cases pc with
    | for_head => exact ⟨⟨h0, h32⟩, fun _ => ⟨h0, h32⟩⟩
    | fill =>
      have hs := hsr (Or.inl rfl)
      by_cases hp : m.p < RAM_END
      · have e : step ram ebss ⟨Pc.fill, m⟩ Event.cpu = ⟨Pc.fill, fillBody ram m⟩ := by
          simp only [step, cpuStep]; rw [if_pos hp]
        rw [e]
        exact ⟨hx, fun _ => hs⟩
      · have e : step ram ebss ⟨Pc.fill, m⟩ Event.cpu = ⟨Pc.restore, m⟩ := by
          simp only [step, cpuStep]; rw [if_neg hp]
        rw [e]
        exact ⟨⟨h0, h32⟩, fun _ => hs⟩
    | restore =>
      have hs := hsr (Or.inr rfl)
      exact ⟨hs, fun h => by rcases h with h | h <;> cases h⟩
    | verify =>
      by_cases hp : m.p < RAM_END
      · have hb : (verifyBody ram m).2.srand = xorshift m.srand := rfl
        have e : (step ram ebss ⟨Pc.verify, m⟩ Event.cpu).m = (verifyBody ram m).2 ∧
            ((step ram ebss ⟨Pc.verify, m⟩ Event.cpu).pc = Pc.ram_fail ∨
             (step ram ebss ⟨Pc.verify, m⟩ Event.cpu).pc = Pc.verify) := by
          simp only [step, cpuStep]; rw [if_pos hp]
          split
          · next h => exact ⟨by rw [h], Or.inl rfl⟩
          · next h => exact ⟨by rw [h], Or.inr rfl⟩
        rw [e.1, hb]
        refine ⟨hx, fun h => ?_⟩
        rcases e.2 with e2 | e2 <;> rw [e2] at h <;> rcases h with h | h <;> cases h
      · have e : step ram ebss ⟨Pc.verify, m⟩ Event.cpu = ⟨Pc.for_head, m⟩ := by
          simp only [step, cpuStep]; rw [if_neg hp]
        rw [e]
        exact ⟨⟨h0, h32⟩, fun h => by rcases h with h | h <;> cases h⟩
    | ram_fail => exact ⟨⟨h0, h32⟩, fun h => by rcases h with h | h <;> cases h⟩
    | led_b12 => exact ⟨⟨h0, h32⟩, fun h => by rcases h with h | h <;> cases h⟩
    | led_c13 => exact ⟨⟨h0, h32⟩, fun h => by rcases h with h | h <;> cases h⟩
    | hang => exact ⟨⟨h0, h32⟩, fun h => by rcases h with h | h <;> cases h⟩

theorem srand_invariant_run (ram : Ram σ) (ebss : Nat) (s : Sys σ) (evs : List Event)
    (h : (s.m.srand ≠ 0 ∧ s.m.srand < 2 ^ 32) ∧
      ((s.pc = Pc.fill ∨ s.pc = Pc.restore) → s.m.sr ≠ 0 ∧ s.m.sr < 2 ^ 32)) :
    (run ram ebss s evs).m.srand ≠ 0 ∧ (run ram ebss s evs).m.srand < 2 ^ 32 := by
  induction evs generalizing s with
  | nil => exact h.1
  | cons e es ih => exact ih (step ram ebss s e) (srand_invariant ram ebss s e h)

/-- C5: the startup seed is non-zero; the transform of rand maps zero to
zero and every non-zero 32-bit word to a non-zero word; and in every state the
system reaches from startup by steps of main (which call rand and restore
the checkpoint) and timer periods (which fire IRQ_tim4), srand is not
zero. -/
theorem srand_never_zero (ram : Ram σ) (ebss : Nat) (boot : Machine σ) (evs : List Event) :
    SEED ≠ 0 ∧ xorshift 0 = 0 ∧
    (∀ x, x < 2 ^ 32 → x ≠ 0 → xorshift x ≠ 0) ∧
    (run ram ebss (startup boot) evs).m.srand ≠ 0 := by
  refine ⟨by decide, xorshift_zero, fun x hx h0 => xorshift_ne_zero x hx h0, ?_⟩
  refine (srand_invariant_run ram ebss (startup boot) evs ⟨⟨?_, ?_⟩, ?_⟩).1
  · show SEED ≠ 0; decide
  · show SEED < 2 ^ 32; decide
  · intro h; rcases h with h | h <;> cases h

theorem srand_never_zero_witness :
    xorshift SEED ≠ 0 ∧
    (run idealRam EBSS64 (startup (blank (fun _ : Nat => 0)))
      [Event.cpu, Event.tim4, Event.cpu, Event.cpu, Event.tim4]).m.srand ≠ 0 :=
  ⟨(srand_never_zero idealRam EBSS64 (blank (fun _ : Nat => 0)) []).2.2.1 SEED
      (by decide) (by decide),
   (srand_never_zero idealRam EBSS64 (blank (fun _ : Nat => 0))
      [Event.cpu, Event.tim4, Event.cpu, Event.cpu, Event.tim4]).2.2.2⟩

/-! ## The generator state from pass to pass -/

theorem xorshift_iterate_injective (n x y : Nat) (hx : x < 2 ^ 32) (hy : y < 2 ^ 32)
    (h : xorshift^[n] x = xorshift^[n] y) : x = y := by
  induction n with
  | zero => exact h
  | succ n ih =>
    rw [Function.iterate_succ_apply', Function.iterate_succ_apply'] at h
    exact ih (xorshift_injective _ _ (iterate_lt xorshift xorshift_lt n x hx)
      (iterate_lt xorshift xorshift_lt n y hy) h)

/-- C10: over a fully functional, non-empty window and from a non-zero
32-bit generator state, in particular the startup seed: when the window has
at most 5120 cells, one iteration of the for loop ends at the end of the loop
body with srand different from its value at the start; and as long as j times
the window length is below 2 ^ 32 - 1, the j-th iteration is reached and
srand at its start differs from srand at the start of every earlier
iteration. -/
theorem generator_state_differs (ram : Ram σ) (ebss : Nat) (hfun : Functional ram ebss)
    (st : Machine σ) (h1 : 1 ≤ cells ebss) (hs0 : st.srand ≠ 0) (hs : st.srand < 2 ^ 32) :
    (cells ebss ≤ 5120 →
      ∃ st', main_pass ram ebss st = some (Flow.next st') ∧ st'.srand ≠ st.srand) ∧
    (∀ j, j * cells ebss < 2 ^ 32 - 1 →
      ∃ stj, main_loop ram ebss j st = some (Flow.next stj) ∧
        ∀ i, i < j → ∃ sti, main_loop ram ebss i st = some (Flow.next sti) ∧
          sti.srand ≠ stj.srand) := by
  constructor
  · intro h2
    refine ⟨_, main_pass_ok ram ebss hfun st, ?_⟩
    dsimp only
    exact xorshift_no_short_cycle st.srand hs hs0 (cells ebss) (by omega)
      (lt_of_le_of_lt h2 (by decide))
  · intro j hj
    obtain ⟨stj, hj1, hj2⟩ := main_loop_ok ram ebss hfun j st
    refine ⟨stj, hj1, fun i hi => ?_⟩
    obtain ⟨sti, hi1, hi2⟩ := main_loop_ok ram ebss hfun i st
    refine ⟨sti, hi1, fun heq => ?_⟩
    rw [hi2, hj2] at heq
    have e : j * cells ebss = i * cells ebss + (j - i) * cells ebss := by
      rw [← Nat.add_mul]; congr 1; omega
    rw [e, Function.iterate_add_apply] at heq
    have hlt := iterate_lt xorshift xorshift_lt ((j - i) * cells ebss) st.srand hs
    have hfix := xorshift_iterate_injective _ _ _ hs hlt heq
    have hpos : 0 < (j - i) * cells ebss := Nat.mul_pos (by omega) (by omega)
    have hle : (j - i) * cells ebss ≤ j * cells ebss :=
      Nat.mul_le_mul_right _ (Nat.sub_le j i)
    have hP : PERIOD = 2 ^ 32 - 1 := rfl
    exact xorshift_no_short_cycle st.srand hs hs0 _ hpos (by rw [hP]; omega) hfix.symm

theorem generator_state_differs_witness :
    Functional idealRam 0x20000000 ∧ cells 0x20000000 = 5120 ∧
    (cells 0x20000000 ≤ 5120 →
      ∃ st', main_pass idealRam 0x20000000 (main_init (blank (fun _ : Nat => 0))) =
          some (Flow.next st') ∧
        st'.srand ≠ (main_init (blank (fun _ : Nat => 0))).srand) ∧
    (∀ j, j * cells 0x20000000 < 2 ^ 32 - 1 →
      ∃ stj, main_loop idealRam 0x20000000 j (main_init (blank (fun _ : Nat => 0))) =
          some (Flow.next stj) ∧
        ∀ i, i < j →
          ∃ sti, main_loop idealRam 0x20000000 i (main_init (blank (fun _ : Nat => 0))) =
              some (Flow.next sti) ∧
            sti.srand ≠ stj.srand) :=
  ⟨idealRam_functional _, by decide,
   generator_state_differs idealRam 0x20000000 (idealRam_functional _)
     (main_init (blank (fun _ : Nat => 0))) (by decide) (by decide) (by decide)⟩

/-! ## The orbit of a generator state -/

theorem xorshift_iterate_ne_zero (n x : Nat) (hx : x < 2 ^ 32) (h0 : x ≠ 0) :
    xorshift^[n] x ≠ 0 := by
  induction n with
  | zero => exact h0
  | succ n ih =>
    rw [Function.iterate_succ_apply']
    exact xorshift_ne_zero _ (iterate_lt xorshift xorshift_lt n x hx) ih

/-- Two iterates of a non-zero 32-bit word with different indices below
PERIOD differ. -/
theorem orbit_injective (s : Nat) (hs : s < 2 ^ 32) (h0 : s ≠ 0) (a b : Nat)
    (ha : a < PERIOD) (hb : b < PERIOD) (h : xorshift^[a] s = xorshift^[b] s) : a = b := by
  have key : ∀ a b, a < b → b < PERIOD → xorshift^[a] s = xorshift^[b] s → False := by
    intro a b hab hb h
    have e : b = a + (b - a) := by omega
    rw [e, Function.iterate_add_apply] at h
    have hlt := iterate_lt xorshift xorshift_lt (b - a) s hs
    have hfix := xorshift_iterate_injective a _ _ hs hlt h
    exact xorshift_no_short_cycle s hs h0 (b - a) (by omega) (by omega) hfix.symm
  rcases Nat.lt_trichotomy a b with hab | hab | hab
  · exact (key a b hab hb h).elim
  · exact hab
  · exact (key b a hab ha h.symm).elim

/-- The first PERIOD iterates of a non-zero 32-bit word are all the non-zero
32-bit words. -/
theorem orbit_covers (s : Nat) (hs : s < 2 ^ 32) (h0 : s ≠ 0) (y : Nat)
    (hy : y < 2 ^ 32) (hy0 : y ≠ 0) : ∃ n, n < PERIOD ∧ xorshift^[n] s = y := by
  have hP : PERIOD + 1 = 2 ^ 32 := by decide
  have hsub : (Finset.range PERIOD).image (fun n => xorshift^[n] s) ⊆
      Finset.Ico 1 (PERIOD + 1) := by
    intro z hz
    rw [Finset.mem_image] at hz
    obtain ⟨n, _, rfl⟩ := hz
    rw [Finset.mem_Ico]
    have h1 := iterate_lt xorshift xorshift_lt n s hs
    have h2 := xorshift_iterate_ne_zero n s hs h0
    rw [← hP] at h1
    exact ⟨Nat.pos_of_ne_zero h2, h1⟩
  have hcard : (Finset.Ico 1 (PERIOD + 1)).card ≤
      ((Finset.range PERIOD).image (fun n => xorshift^[n] s)).card := by
    rw [Finset.card_image_of_injOn, Finset.card_range, Nat.card_Ico]
    · exact Nat.le_of_eq (by omega)
    · intro a ha b hb h
      rw [Finset.mem_coe, Finset.mem_range] at ha hb
      exact orbit_injective s hs h0 a b ha hb h
  have heq := Finset.eq_of_subset_of_card_le hsub hcard
  have hmem : y ∈ Finset.Ico 1 (PERIOD + 1) := by
    rw [Finset.mem_Ico, hP]
    exact ⟨Nat.pos_of_ne_zero hy0, hy⟩
  rw [← heq, Finset.mem_image] at hmem
  obtain ⟨n, hn, h⟩ := hmem
  exact ⟨n, Finset.mem_range.mp hn, h⟩

/-- C11: for every non-zero 32-bit word s, 2 ^ 32 - 1 applications of the
transform of rand return s and no smaller positive number of applications
does, so the least period of s is 2 ^ 32 - 1; and every non-zero 32-bit word y
is the n-th iterate of s for exactly one n below 2 ^ 32 - 1. -/
theorem full_period (s : Nat) (hs : s < 2 ^ 32) (h0 : s ≠ 0) :
    xorshift^[2 ^ 32 - 1] s = s ∧
    (∀ n, 0 < n → n < 2 ^ 32 - 1 → xorshift^[n] s ≠ s) ∧
    Function.minimalPeriod xorshift s = 2 ^ 32 - 1 ∧
    (∀ y, y < 2 ^ 32 → y ≠ 0 →
      ∃ n, n < 2 ^ 32 - 1 ∧ xorshift^[n] s = y ∧
        ∀ m, m < 2 ^ 32 - 1 → xorshift^[m] s = y → m = n) := by
  have hP : PERIOD = 2 ^ 32 - 1 := rfl
  rw [← hP]
  have hper : xorshift^[PERIOD] s = s := xorshift_period s hs
  have hshort : ∀ n, 0 < n → n < PERIOD → xorshift^[n] s ≠ s :=
    fun n hn0 hn => xorshift_no_short_cycle s hs h0 n hn0 hn
  refine ⟨hper, hshort, ?_, ?_⟩
  · have hpp : Function.IsPeriodicPt xorshift PERIOD s := hper
    have hpos : 0 < PERIOD := by decide
    have hle := Function.IsPeriodicPt.minimalPeriod_le hpos hpp
    have hmpos := Function.IsPeriodicPt.minimalPeriod_pos hpos hpp
    by_contra hne
    exact hshort _ hmpos (lt_of_le_of_ne hle hne) (Function.iterate_minimalPeriod)
  · intro y hy hy0
    obtain ⟨n, hn, h⟩ := orbit_covers s hs h0 y hy hy0
    refine ⟨n, hn, h, fun m hm hmy => ?_⟩
    exact orbit_injective s hs h0 m n hm hn (hmy.trans h.symm)

theorem full_period_witness :
    SEED < 2 ^ 32 ∧ SEED ≠ 0 ∧
    xorshift^[2 ^ 32 - 1] SEED = SEED ∧
    (∀ n, 0 < n → n < 2 ^ 32 - 1 → xorshift^[n] SEED ≠ SEED) ∧
    Function.minimalPeriod xorshift SEED = 2 ^ 32 - 1 ∧
    (∀ y, y < 2 ^ 32 → y ≠ 0 →
      ∃ n, n < 2 ^ 32 - 1 ∧ xorshift^[n] SEED = y ∧
        ∀ m, m < 2 ^ 32 - 1 → xorshift^[m] SEED = y → m = n) :=
  ⟨by decide, by decide, full_period SEED (by decide) (by decide)⟩

/-- C18: the transform of rand is injective on 32-bit words: words with the
same image are equal, and different words have different images. -/
theorem transform_injective (x y : Nat) (hx : x < 2 ^ 32) (hy : y < 2 ^ 32) :
    (xorshift x = xorshift y → x = y) ∧ (x ≠ y → xorshift x ≠ xorshift y) :=
  ⟨fun h => xorshift_injective x y hx hy h,
   fun hne h => hne (xorshift_injective x y hx hy h)⟩

theorem transform_injective_witness :
    (1 : Nat) < 2 ^ 32 ∧ (2 : Nat) < 2 ^ 32 ∧ (1 : Nat) ≠ 2 ∧ xorshift 1 ≠ xorshift 2 :=
  ⟨by decide, by decide, by decide,
   (transform_injective 1 2 (by decide) (by decide)).2 (by decide)⟩

/-! ## Replay of the generator -/

theorem rand_seq_outputs (n : Nat) (st : Machine σ) :
    (rand_seq n st).1 = (List.range n).map (fun j => xorshift^[j + 1] st.srand) := by
  induction n generalizing st with
  | zero => rfl
  | succ n ih =>
    have e : (rand_seq (n + 1) st).1 = xorshift st.srand :: (rand_seq n (rand st).2).1 := rfl
    rw [e, ih, List.range_succ_eq_map, List.map_cons, List.map_map]
    rfl

theorem rand_seq_srand (n : Nat) (st : Machine σ) :
    (rand_seq n st).2.srand = xorshift^[n] st.srand := by
  induction n generalizing st with
  | zero => rfl
  | succ n ih =>
    have e : (rand_seq (n + 1) st).2 = (rand_seq n (rand st).2).2 := rfl
    rw [e, ih, Function.iterate_succ_apply]
    rfl

theorem randOutputs_fillTrace (s q n : Nat) :
    randOutputs (fillTrace s q n) = (List.range n).map (fun j => xorshift^[j + 1] s) := by
  induction n generalizing s q with
  | zero => rfl
  | succ n ih =>
    have e : randOutputs (fillTrace s q (n + 1)) =
        xorshift s :: randOutputs (fillTrace (xorshift s) (q + 4) n) := rfl
    rw [e, ih, List.range_succ_eq_map, List.map_cons, List.map_map]
    rfl

theorem randOutputs_verifyTrace (ram : Ram σ) (m : σ) (s q n : Nat) :
    randOutputs (verifyTrace ram m s q n) =
      (List.range n).map (fun j => xorshift^[j + 1] s) := by
  induction n generalizing s q with
  | zero => rfl
  | succ n ih =>
    have e : randOutputs (verifyTrace ram m s q (n + 1)) =
        xorshift s :: randOutputs (verifyTrace ram m (xorshift s) (q + 4) n) := rfl
    rw [e, ih, List.range_succ_eq_map, List.map_cons, List.map_map]
    rfl

/-- C12: the word rand returns depends only on srand; n calls of rand from
two machines with the same srand return the same n words; resetting srand to
the checkpoint after n calls and calling rand n times again returns the same
n words, the j-th being the j-th iterate of the transform on the checkpoint;
and in an iteration of the for loop over a fully functional window the calls
of rand in the fill walk and those in the verify walk return these same
words. -/
theorem replay_law (n : Nat) (st st' : Machine σ) (h : st'.srand = st.srand)
    (ram : Ram σ) (ebss : Nat) :
    (rand st').1 = (rand st).1 ∧
    (rand_seq n st').1 = (rand_seq n st).1 ∧
    (rand_seq n { (rand_seq n st).2 with srand := st.srand }).1 = (rand_seq n st).1 ∧
    (rand_seq n st).1 = (List.range n).map (fun j => xorshift^[j + 1] st.srand) ∧
    (Functional ram ebss →
      ∃ st2, main_pass ram ebss st = some (Flow.next st2) ∧
        st2.trace = st.trace ++ fillTrace st.srand ebss (cells ebss) ++
          verifyTrace ram st2.mem st.srand ebss (cells ebss) ∧
        randOutputs (fillTrace st.srand ebss (cells ebss)) =
          (rand_seq (cells ebss) st).1 ∧
        randOutputs (verifyTrace ram st2.mem st.srand ebss (cells ebss)) =
          (rand_seq (cells ebss) st).1) := by
  refine ⟨?_, ?_, ?_, rand_seq_outputs n st, ?_⟩
  · show xorshift st'.srand = xorshift st.srand
    rw [h]
  · rw [rand_seq_outputs, rand_seq_outputs, h]
  · rw [rand_seq_outputs, rand_seq_outputs]
  · intro hfun
    refine ⟨_, main_pass_ok ram ebss hfun st, rfl, ?_, ?_⟩
    · rw [randOutputs_fillTrace, rand_seq_outputs]
    · rw [randOutputs_verifyTrace, rand_seq_outputs]

theorem replay_law_witness :
    (rand_seq 2 { main_init (blank (fun _ : Nat => 0)) with x := 1, p := 8 }).1 =
      (rand_seq 2 (main_init (blank (fun _ : Nat => 0)))).1 ∧
    (rand_seq 2 { (rand_seq 2 (main_init (blank (fun _ : Nat => 0)))).2 with
                  srand := (main_init (blank (fun _ : Nat => 0))).srand }).1 =
      (rand_seq 2 (main_init (blank (fun _ : Nat => 0)))).1 ∧
    (rand_seq 2 (main_init (blank (fun _ : Nat => 0)))).1 = [2950510158, 730507844] ∧
    ∃ st2, main_pass idealRam (RAM_END - 8) (main_init (blank (fun _ : Nat => 0))) =
        some (Flow.next st2) ∧
      st2.trace = (main_init (blank (fun _ : Nat => 0))).trace ++
          fillTrace (main_init (blank (fun _ : Nat => 0))).srand (RAM_END - 8)
            (cells (RAM_END - 8)) ++
          verifyTrace idealRam st2.mem (main_init (blank (fun _ : Nat => 0))).srand
            (RAM_END - 8) (cells (RAM_END - 8)) ∧
      randOutputs (fillTrace (main_init (blank (fun _ : Nat => 0))).srand (RAM_END - 8)
          (cells (RAM_END - 8))) =
        (rand_seq (cells (RAM_END - 8)) (main_init (blank (fun _ : Nat => 0)))).1 ∧
      randOutputs (verifyTrace idealRam st2.mem (main_init (blank (fun _ : Nat => 0))).srand
          (RAM_END - 8) (cells (RAM_END - 8))) =
        (rand_seq (cells (RAM_END - 8)) (main_init (blank (fun _ : Nat => 0)))).1 := by
  have h := replay_law 2 (main_init (blank (fun _ : Nat => 0)))
    { main_init (blank (fun _ : Nat => 0)) with x := 1, p := 8 } rfl idealRam (RAM_END - 8)
  exact ⟨h.2.1, h.2.2.1, h.2.2.2.1.trans (by decide),
    h.2.2.2.2 (idealRam_functional (RAM_END - 8))⟩

/-! ## What a pass does to the generator and the window -/

theorem cells_lt_PERIOD (q : Nat) : cells q < PERIOD := by
  have hP : PERIOD = 4294967295 := by decide
  rw [hP]; unfold cells RAM_END; omega

/-- C15: over a fully functional window of N cells, the fill walk ends
with cell i holding the (i+1)-th iterate of the transform on the value srand
had at the start, for every i below N; the iteration of the for loop then
reaches the end of the loop body with srand equal to the N-th iterate of
that value, the checkpoint sr holding the value itself; and for a non-empty
window and a non-zero 32-bit value the final srand differs from it. -/
theorem pass_advances_generator (ram : Ram σ) (ebss : Nat) (hfun : Functional ram ebss)
    (st : Machine σ) :
    ∃ st1, main_fill ram (cells ebss) { st with p := ebss, sr := st.srand } = some st1 ∧
      (∀ i, i < cells ebss →
        ram.load st1.mem (cellAddr ebss i) = xorshift^[i + 1] st.srand) ∧
      ∃ st2, main_pass ram ebss st = some (Flow.next st2) ∧
        st2.srand = xorshift^[cells ebss] st.srand ∧
        st2.sr = st.srand ∧
        st2.mem = st1.mem ∧
        (0 < cells ebss → st.srand ≠ 0 → st.srand < 2 ^ 32 → st2.srand ≠ st.srand) := by
  refine ⟨_, main_fill_eq ram (cells ebss) _ (le_refl _), ?_, _,
    main_pass_ok ram ebss hfun st, rfl, rfl, rfl, ?_⟩
  · intro i hi
    exact fill_window ram ebss hfun st.srand st.mem i hi
  · intro hN h0 h32
    exact xorshift_no_short_cycle st.srand h32 h0 (cells ebss) hN (cells_lt_PERIOD ebss)

theorem pass_advances_generator_witness :
    Functional idealRam EBSS64 ∧
    ∃ st1, main_fill idealRam (cells EBSS64)
        { main_init (blank (fun _ : Nat => 0)) with
          p := EBSS64, sr := (main_init (blank (fun _ : Nat => 0))).srand } = some st1 ∧
      (∀ i, i < cells EBSS64 →
        idealRam.load st1.mem (cellAddr EBSS64 i) =
          xorshift^[i + 1] (main_init (blank (fun _ : Nat => 0))).srand) ∧
      ∃ st2, main_pass idealRam EBSS64 (main_init (blank (fun _ : Nat => 0))) =
          some (Flow.next st2) ∧
        st2.srand = xorshift^[cells EBSS64] (main_init (blank (fun _ : Nat => 0))).srand ∧
        st2.sr = (main_init (blank (fun _ : Nat => 0))).srand ∧
        st2.mem = st1.mem ∧
        (0 < cells EBSS64 → (main_init (blank (fun _ : Nat => 0))).srand ≠ 0 →
          (main_init (blank (fun _ : Nat => 0))).srand < 2 ^ 32 →
          st2.srand ≠ (main_init (blank (fun _ : Nat => 0))).srand) :=
  ⟨idealRam_functional EBSS64,
   pass_advances_generator idealRam EBSS64 (idealRam_functional EBSS64) _⟩

/-! ## Termination and coverage of the walks -/

theorem writeAddrs_fillTrace (s q n : Nat) :
    writeAddrs (fillTrace s q n) = (List.range n).map (cellAddr q) := by
  induction n generalizing s q with
  | zero => rfl
  | succ n ih =>
    have e : writeAddrs (fillTrace s q (n + 1)) =
        q :: writeAddrs (fillTrace (xorshift s) (q + 4) n) := rfl
    rw [e, ih, List.range_succ_eq_map, List.map_cons, List.map_map]
    congr 1
    apply List.map_congr_left
    intro i _
    simp only [Function.comp, cellAddr]
    omega

/-- With less fuel than cells left, the fill loop does not finish. -/
theorem main_fill_none (ram : Ram σ) (fuel : Nat) (st : Machine σ)
    (h : fuel < cells st.p) : main_fill ram fuel st = none := by
  induction fuel generalizing st with
  | zero =>
    have hp : st.p < RAM_END := lt_of_cells_pos (by omega)
    rw [main_fill, if_pos hp]
  | succ f ih =>
    have hp : st.p < RAM_END := lt_of_cells_pos (by omega)
    have hc := cells_of_lt hp
    have hb := fillBody_eq ram st hp
    rw [main_fill, if_pos hp]
    apply ih
    rw [hb]
    dsimp only
    omega

/-- With less fuel than cells left, the verify loop over matching cells does
not finish. -/
theorem main_verify_none (ram : Ram σ) (fuel : Nat) (st : Machine σ)
    (h : fuel < cells st.p)
    (hm : ∀ j, j < cells st.p → ram.load st.mem (st.p + 4 * j) = xorshift^[j + 1] st.srand) :
    main_verify ram fuel st = none := by
  rw [main_verify_advance ram fuel fuel st (by omega) (le_refl _)
    (fun j hj => hm j (by omega)), Nat.sub_self, main_verify]
  dsimp only
  have hp : st.p + 4 * fuel < RAM_END := cellAddr_lt h
  rw [if_pos hp]

/-- C17: for a 4-byte aligned window start between 0x20000000 and the
window end, the window has (end - start) / 4 cells; the fill walk finishes
with exactly that much fuel and with no less, stores to the cells at start,
start + 4, ... in ascending order and leaves p at the window end; when all
cells match, the same holds for the loads of the verify walk; every cell
visited lies inside the window and incrementing its address does not wrap
modulo 2 ^ 32; and every byte of the window lies in a visited cell. -/
theorem walk_covers_window (ram : Ram σ) (ebss : Nat) (st : Machine σ)
    (hal : ebss % 4 = 0) (hlo : 0x20000000 ≤ ebss) (hhi : ebss ≤ RAM_END)
    (hp : st.p = ebss) :
    cells ebss = (RAM_END - ebss) / 4 ∧
    (∃ st1, main_fill ram (cells ebss) st = some st1 ∧
      st1.p = RAM_END ∧
      st1.trace = st.trace ++ fillTrace st.srand ebss (cells ebss) ∧
      writeAddrs (fillTrace st.srand ebss (cells ebss)) =
        (List.range (cells ebss)).map (cellAddr ebss)) ∧
    (∀ fuel, fuel < cells ebss → main_fill ram fuel st = none) ∧
    ((∀ j, j < cells ebss →
        ram.load st.mem (cellAddr ebss j) = xorshift^[j + 1] st.srand) →
      (∃ st2, main_verify ram (cells ebss) st = some (Flow.next st2) ∧
        st2.p = RAM_END ∧
        st2.trace = st.trace ++ verifyTrace ram st.mem st.srand ebss (cells ebss) ∧
        readAddrs (verifyTrace ram st.mem st.srand ebss (cells ebss)) =
          (List.range (cells ebss)).map (cellAddr ebss)) ∧
      (∀ fuel, fuel < cells ebss → main_verify ram fuel st = none)) ∧
    (∀ i, i < cells ebss →
      ebss ≤ cellAddr ebss i ∧ cellAddr ebss i + 4 ≤ RAM_END ∧
      (i + 1 < cells ebss → cellAddr ebss i < cellAddr ebss (i + 1)) ∧
      (cellAddr ebss i + 4) % 2 ^ 32 = cellAddr ebss i + 4) ∧
    (∀ b, ebss ≤ b → b < RAM_END →
      ∃ i, i < cells ebss ∧ cellAddr ebss i ≤ b ∧ b < cellAddr ebss i + 4) := by
  subst hp
  have hN : cells st.p = (RAM_END - st.p) / 4 := by
    unfold cells; unfold RAM_END at *; omega
  have hend : st.p + 4 * cells st.p = RAM_END := by
    rw [hN]; unfold RAM_END at *; omega
  refine ⟨hN, ?_, ?_, ?_, ?_, ?_⟩
  · exact ⟨_, main_fill_eq ram (cells st.p) st (le_refl _), hend, rfl,
      writeAddrs_fillTrace _ _ _⟩
  · intro fuel hf
    exact main_fill_none ram fuel st hf
  · intro hm
    refine ⟨⟨_, main_verify_pass ram (cells st.p) st (le_refl _) hm, hend, rfl,
      readAddrs_verifyTrace _ _ _ _ _⟩, ?_⟩
    intro fuel hf
    exact main_verify_none ram fuel st hf hm
  · intro i hi
    have h1 : cellAddr st.p i < RAM_END := cellAddr_lt hi
    refine ⟨?_, ?_, ?_, ?_⟩
    · unfold cellAddr; omega
    · rw [hN] at hi; unfold cellAddr; unfold RAM_END at *; omega
    · intro _; unfold cellAddr; omega
    · exact ptr_incr h1
  · intro b hb1 hb2
    refine ⟨(b - st.p) / 4, ?_, ?_, ?_⟩
    · rw [hN]; unfold RAM_END at *; omega
    · unfold cellAddr; omega
    · unfold cellAddr; omega

theorem walk_covers_window_witness :
    EBSS64 % 4 = 0 ∧ 0x20000000 ≤ EBSS64 ∧ EBSS64 ≤ RAM_END ∧
    cells EBSS64 = 64 ∧
    (∃ st1, main_fill idealRam (cells EBSS64)
        { main_init (blank (fun _ : Nat => 0)) with p := EBSS64 } = some st1 ∧
      st1.p = RAM_END) ∧
    (∀ fuel, fuel < cells EBSS64 →
      main_fill idealRam fuel { main_init (blank (fun _ : Nat => 0)) with p := EBSS64 } =
        none) := by
  have h := walk_covers_window idealRam EBSS64
    { main_init (blank (fun _ : Nat => 0)) with p := EBSS64 }
    (by decide) (by decide) (by decide) rfl
  refine ⟨by decide, by decide, by decide, by decide, ?_, h.2.2.1⟩
  obtain ⟨st1, h1, h2, _⟩ := h.2.1
  exact ⟨st1, h1, h2⟩

/-! ## The heartbeat does not interfere with the memory test -/

theorem cpuStep_core (ram : Ram σ) (ebss : Nat) (a b : Sys σ)
    (h : a.pc = b.pc ∧ a.m.srand = b.m.srand ∧ a.m.p = b.m.p ∧ a.m.sr = b.m.sr ∧
      a.m.mem = b.m.mem) :
    (cpuStep ram ebss a).pc = (cpuStep ram ebss b).pc ∧
    (cpuStep ram ebss a).m.srand = (cpuStep ram ebss b).m.srand ∧
    (cpuStep ram ebss a).m.p = (cpuStep ram ebss b).m.p ∧
    (cpuStep ram ebss a).m.sr = (cpuStep ram ebss b).m.sr ∧
    (cpuStep ram ebss a).m.mem = (cpuStep ram ebss b).m.mem := by
  obtain ⟨apc, am⟩ := a
  obtain ⟨bpc, bm⟩ := b
  obtain ⟨h1, h2, h3, h4, h5⟩ := h
  dsimp only at h1 h2 h3 h4 h5
  subst h1
  cases apc with
  | for_head => exact ⟨rfl, h2, rfl, h2, h5⟩
  | fill =>
    by_cases hp : am.p < RAM_END
    · have hq : bm.p < RAM_END := by rw [← h3]; exact hp
      have ea : cpuStep ram ebss ⟨Pc.fill, am⟩ = ⟨Pc.fill, fillBody ram am⟩ := by
        simp only [cpuStep]; rw [if_pos hp]
      have eb : cpuStep ram ebss ⟨Pc.fill, bm⟩ = ⟨Pc.fill, fillBody ram bm⟩ := by
        simp only [cpuStep]; rw [if_pos hq]
      rw [ea, eb]
      refine ⟨rfl, ?_, ?_, h4, ?_⟩
      · show xorshift am.srand = xorshift bm.srand
        rw [h2]
      · show (am.p + 4) % 2 ^ 32 = (bm.p + 4) % 2 ^ 32
        rw [h3]
      · show ram.store am.mem am.p (xorshift am.srand) =
          ram.store bm.mem bm.p (xorshift bm.srand)
        rw [h2, h3, h5]
    · have hq : ¬ bm.p < RAM_END := by rw [← h3]; exact hp
      have ea : cpuStep ram ebss ⟨Pc.fill, am⟩ = ⟨Pc.restore, am⟩ := by
        simp only [cpuStep]; rw [if_neg hp]
      have eb : cpuStep ram ebss ⟨Pc.fill, bm⟩ = ⟨Pc.restore, bm⟩ := by
        simp only [cpuStep]; rw [if_neg hq]
      rw [ea, eb]
      exact ⟨rfl, h2, h3, h4, h5⟩
  | restore => exact ⟨rfl, h4, rfl, h4, h5⟩
  | verify =>
    by_cases hp : am.p < RAM_END
    · have hq : bm.p < RAM_END := by rw [← h3]; exact hp
      have hv : (verifyBody ram am).1 = (verifyBody ram bm).1 := by
        show (ram.load am.mem am.p != xorshift am.srand) =
          (ram.load bm.mem bm.p != xorshift bm.srand)
        rw [h2, h3, h5]
      have ea : cpuStep ram ebss ⟨Pc.verify, am⟩ =
          ⟨if (verifyBody ram am).1 then Pc.ram_fail else Pc.verify, (verifyBody ram am).2⟩ := by
        simp only [cpuStep]; rw [if_pos hp]
        split <;> next h => simp [h]
      have eb : cpuStep ram ebss ⟨Pc.verify, bm⟩ =
          ⟨if (verifyBody ram bm).1 then Pc.ram_fail else Pc.verify, (verifyBody ram bm).2⟩ := by
        simp only [cpuStep]; rw [if_pos hq]
        split <;> next h => simp [h]
      rw [ea, eb, hv]
      refine ⟨rfl, ?_, ?_, h4, h5⟩
      · show xorshift am.srand = xorshift bm.srand
        rw [h2]
      · show (am.p + 4) % 2 ^ 32 = (bm.p + 4) % 2 ^ 32
        rw [h3]
    · have hq : ¬ bm.p < RAM_END := by rw [← h3]; exact hp
      have ea : cpuStep ram ebss ⟨Pc.verify, am⟩ = ⟨Pc.for_head, am⟩ := by
        simp only [cpuStep]; rw [if_neg hp]
      have eb : cpuStep ram ebss ⟨Pc.verify, bm⟩ = ⟨Pc.for_head, bm⟩ := by
        simp only [cpuStep]; rw [if_neg hq]
      rw [ea, eb]
      exact ⟨rfl, h2, h3, h4, h5⟩
  | ram_fail => exact ⟨rfl, h2, h3, h4, h5⟩
  | led_b12 => exact ⟨rfl, h2, h3, h4, h5⟩
  | led_c13 => exact ⟨rfl, h2, h3, h4, h5⟩
  | hang => exact ⟨rfl, h2, h3, h4, h5⟩

theorem tim4_overflow_core (s : Sys σ) :
    (tim4_overflow s).pc = s.pc ∧ (tim4_overflow s).m.srand = s.m.srand ∧
    (tim4_overflow s).m.p = s.m.p ∧ (tim4_overflow s).m.sr = s.m.sr ∧
    (tim4_overflow s).m.mem = s.m.mem := by
  simp only [tim4_overflow]
  split <;> exact ⟨rfl, rfl, rfl, rfl, rfl⟩

theorem run_core (ram : Ram σ) (ebss : Nat) (evs : List Event) (a b : Sys σ)
    (h : a.pc = b.pc ∧ a.m.srand = b.m.srand ∧ a.m.p = b.m.p ∧ a.m.sr = b.m.sr ∧
      a.m.mem = b.m.mem) :
    (run ram ebss a evs).pc = (run ram ebss b (cpuEvents evs)).pc ∧
    (run ram ebss a evs).m.srand = (run ram ebss b (cpuEvents evs)).m.srand ∧
    (run ram ebss a evs).m.p = (run ram ebss b (cpuEvents evs)).m.p ∧
    (run ram ebss a evs).m.sr = (run ram ebss b (cpuEvents evs)).m.sr ∧
    (run ram ebss a evs).m.mem = (run ram ebss b (cpuEvents evs)).m.mem := by
  induction evs generalizing a b with
  | nil => exact h
  | cons e es ih =>
    cases e with
    | cpu =>
      have e1 : run ram ebss a (Event.cpu :: es) = run ram ebss (cpuStep ram ebss a) es := rfl
      have e2 : run ram ebss b (cpuEvents (Event.cpu :: es)) =
          run ram ebss (cpuStep ram ebss b) (cpuEvents es) := rfl
      rw [e1, e2]
      exact ih _ _ (cpuStep_core ram ebss a b h)
    | tim4 =>
      have e1 : run ram ebss a (Event.tim4 :: es) = run ram ebss (tim4_overflow a) es := rfl
      have e2 : run ram ebss b (cpuEvents (Event.tim4 :: es)) =
          run ram ebss b (cpuEvents es) := rfl
      rw [e1, e2]
      obtain ⟨t1, t2, t3, t4, t5⟩ := tim4_overflow_core a
      obtain ⟨h1, h2, h3, h4, h5⟩ := h
      exact ih _ _ ⟨t1.trans h1, t2.trans h2, t3.trans h3, t4.trans h4, t5.trans h5⟩

/-- C14: one firing of IRQ_tim4 leaves srand, the RAM, and the locals p
and sr of main unchanged; it changes only the TIM4 status register, the pin
levels, its phase flag x and the trace (which records its stores, among them
the one to the USART1 data register). So from every state and for every
sequence of steps of main and timer periods, the program point, srand, p, sr
and the RAM at the end are the same as after the steps of main alone. -/
theorem heartbeat_does_not_interfere (ram : Ram σ) (ebss : Nat) (st : Machine σ)
    (s : Sys σ) (evs : List Event) :
    (IRQ_tim4 st).srand = st.srand ∧ (IRQ_tim4 st).mem = st.mem ∧
    (IRQ_tim4 st).p = st.p ∧ (IRQ_tim4 st).sr = st.sr ∧
    IRQ_tim4 st = { st with tim4_sr := (IRQ_tim4 st).tim4_sr, pins := (IRQ_tim4 st).pins,
                            x := (IRQ_tim4 st).x, trace := (IRQ_tim4 st).trace } ∧
    (run ram ebss s evs).pc = (run ram ebss s (cpuEvents evs)).pc ∧
    (run ram ebss s evs).m.srand = (run ram ebss s (cpuEvents evs)).m.srand ∧
    (run ram ebss s evs).m.p = (run ram ebss s (cpuEvents evs)).m.p ∧
    (run ram ebss s evs).m.sr = (run ram ebss s (cpuEvents evs)).m.sr ∧
    (run ram ebss s evs).m.mem = (run ram ebss s (cpuEvents evs)).m.mem :=
  ⟨rfl, rfl, rfl, rfl, rfl, run_core ram ebss evs s s ⟨rfl, rfl, rfl, rfl, rfl⟩⟩

/-! ## The entry of the failure latch -/

theorem run_cons (ram : Ram σ) (ebss : Nat) (s : Sys σ) (e : Event) (es : List Event) :
    run ram ebss s (e :: es) = run ram ebss (step ram ebss s e) es := rfl

theorem tim4_masked (s : Sys σ) (hirq : s.m.irq_enabled = false) :
    tim4_overflow s = { s with m := { s.m with tim4_sr := s.m.tim4_sr ||| 1 } } := by
  unfold tim4_overflow
  simp [hirq]

/-- From line 108 with interrupts disabled: nothing happens until main makes
a step, which writes pin C13 and enters the idle loop for good. -/
theorem run_led_c13 (ram : Ram σ) (ebss : Nat) (evs : List Event) (t : Sys σ)
    (hpc : t.pc = Pc.led_c13) (hirq : t.m.irq_enabled = false) :
    (List.count Event.cpu evs = 0 →
      (run ram ebss t evs).pc = Pc.led_c13 ∧
      (run ram ebss t evs).m = { t.m with tim4_sr := (run ram ebss t evs).m.tim4_sr }) ∧
    (0 < List.count Event.cpu evs →
      (run ram ebss t evs).pc = Pc.hang ∧
      (run ram ebss t evs).m =
        { gpio_write_pin Port.gpioc 13 LOW t.m with
          tim4_sr := (run ram ebss t evs).m.tim4_sr }) := by
  induction evs generalizing t with
  | nil => exact ⟨fun _ => ⟨hpc, rfl⟩, fun h => absurd h (by simp)⟩
  | cons e es ih =>
    rw [run_cons]
    cases e with
    | tim4 =>
      have hs : step ram ebss t Event.tim4 =
          { t with m := { t.m with tim4_sr := t.m.tim4_sr ||| 1 } } := tim4_masked t hirq
      obtain ⟨i1, i2⟩ := ih (step ram ebss t Event.tim4) (by rw [hs]; exact hpc)
        (by rw [hs]; exact hirq)
      have hc : List.count Event.cpu (Event.tim4 :: es) = List.count Event.cpu es := by
        simp
      rw [hc]
      constructor
      · intro h0
        obtain ⟨j1, j2⟩ := i1 h0
        exact ⟨j1, by rw [j2, hs]⟩
      · intro h0
        obtain ⟨j1, j2⟩ := i2 h0
        exact ⟨j1, by rw [j2, hs]; rfl⟩
    | cpu =>
      have hs : step ram ebss t Event.cpu =
          ⟨Pc.hang, gpio_write_pin Port.gpioc 13 LOW t.m⟩ := by
        simp only [step, cpuStep]; rw [hpc]
      obtain ⟨j1, j2⟩ := run_latched ram ebss (step ram ebss t Event.cpu) (by rw [hs])
        (by rw [hs]; exact hirq) es
      constructor
      · intro h0; simp at h0
      · intro _
        refine ⟨j1, ?_⟩
        rw [j2, hs]

/-- From line 107 with interrupts disabled: the first step of main writes pin
B12, the second writes pin C13 and enters the idle loop. -/
theorem run_led_b12 (ram : Ram σ) (ebss : Nat) (evs : List Event) (t : Sys σ)
    (hpc : t.pc = Pc.led_b12) (hirq : t.m.irq_enabled = false) :
    (List.count Event.cpu evs = 0 →
      (run ram ebss t evs).pc = Pc.led_b12 ∧
      (run ram ebss t evs).m = { t.m with tim4_sr := (run ram ebss t evs).m.tim4_sr }) ∧
    (List.count Event.cpu evs = 1 →
      (run ram ebss t evs).pc = Pc.led_c13 ∧
      (run ram ebss t evs).m =
        { gpio_write_pin Port.gpiob 12 LOW t.m with
          tim4_sr := (run ram ebss t evs).m.tim4_sr }) ∧
    (2 ≤ List.count Event.cpu evs →
      (run ram ebss t evs).pc = Pc.hang ∧
      (run ram ebss t evs).m =
        { gpio_write_pin Port.gpioc 13 LOW (gpio_write_pin Port.gpiob 12 LOW t.m) with
          tim4_sr := (run ram ebss t evs).m.tim4_sr }) := by
  induction evs generalizing t with
  | nil =>
    exact ⟨fun _ => ⟨hpc, rfl⟩, fun h => absurd h (by simp), fun h => absurd h (by simp)⟩
  | cons e es ih =>
    rw [run_cons]
    cases e with
    | tim4 =>
      have hs : step ram ebss t Event.tim4 =
          { t with m := { t.m with tim4_sr := t.m.tim4_sr ||| 1 } } := tim4_masked t hirq
      obtain ⟨i1, i2, i3⟩ := ih (step ram ebss t Event.tim4) (by rw [hs]; exact hpc)
        (by rw [hs]; exact hirq)
      have hc : List.count Event.cpu (Event.tim4 :: es) = List.count Event.cpu es := by
        simp
      rw [hc]
      refine ⟨fun h0 => ?_, fun h0 => ?_, fun h0 => ?_⟩
      · obtain ⟨j1, j2⟩ := i1 h0
        exact ⟨j1, by rw [j2, hs]⟩
      · obtain ⟨j1, j2⟩ := i2 h0
        exact ⟨j1, by rw [j2, hs]; rfl⟩
      · obtain ⟨j1, j2⟩ := i3 h0
        exact ⟨j1, by rw [j2, hs]; rfl⟩
    | cpu =>
      have hs : step ram ebss t Event.cpu =
          ⟨Pc.led_c13, gpio_write_pin Port.gpiob 12 LOW t.m⟩ := by
        simp only [step, cpuStep]; rw [hpc]
      obtain ⟨j1, j2⟩ := run_led_c13 ram ebss es (step ram ebss t Event.cpu) (by rw [hs])
        (by rw [hs]; exact hirq)
      have hc : List.count Event.cpu (Event.cpu :: es) = List.count Event.cpu es + 1 := by
        simp
      rw [hc]
      refine ⟨fun h0 => by omega, fun h0 => ?_, fun h0 => ?_⟩
      · obtain ⟨k1, k2⟩ := j1 (by omega)
        exact ⟨k1, by rw [k2, hs]⟩
      · obtain ⟨k1, k2⟩ := j2 (by omega)
        exact ⟨k1, by rw [k2, hs]⟩

/-- The only transition into ram_fail is the mismatch branch of line 100. -/
theorem enter_ram_fail (ram : Ram σ) (ebss : Nat) (t : Sys σ) (ev : Event)
    (hne : t.pc ≠ Pc.ram_fail) (h : (step ram ebss t ev).pc = Pc.ram_fail) :
    ev = Event.cpu ∧ t.pc = Pc.verify ∧ t.m.p < RAM_END ∧
      ram.load t.m.mem t.m.p ≠ xorshift t.m.srand := by
  cases ev with
  | tim4 =>
    have : (step ram ebss t Event.tim4).pc = t.pc := (tim4_overflow_core t).1
    rw [this] at h
    exact absurd h hne
  | cpu =>
    obtain ⟨pc, m⟩ := t
    cases pc with
    | for_head => cases h
    | fill =>
      by_cases hp : m.p < RAM_END
      · have e : step ram ebss ⟨Pc.fill, m⟩ Event.cpu = ⟨Pc.fill, fillBody ram m⟩ := by
          simp only [step, cpuStep]; rw [if_pos hp]
        rw [e] at h; cases h
      · have e : step ram ebss ⟨Pc.fill, m⟩ Event.cpu = ⟨Pc.restore, m⟩ := by
          simp only [step, cpuStep]; rw [if_neg hp]
        rw [e] at h; cases h
    | restore => cases h
    | verify =>
      by_cases hp : m.p < RAM_END
      · have e : step ram ebss ⟨Pc.verify, m⟩ Event.cpu =
            ⟨if (verifyBody ram m).1 then Pc.ram_fail else Pc.verify, (verifyBody ram m).2⟩ := by
          simp only [step, cpuStep]; rw [if_pos hp]
          split <;> next h => simp [h]
        rw [e] at h
        refine ⟨rfl, rfl, hp, ?_⟩
        have hb : (verifyBody ram m).1 = true := by
          by_contra hb
          rw [if_neg hb] at h
          cases h
        exact bne_iff_ne.mp hb
      · have e : step ram ebss ⟨Pc.verify, m⟩ Event.cpu = ⟨Pc.for_head, m⟩ := by
          simp only [step, cpuStep]; rw [if_neg hp]
        rw [e] at h; cases h
    | ram_fail => exact absurd rfl hne
    | led_b12 => cases h
    | led_c13 => cases h
    | hang => cases h

/-- C13: the statements at ram_fail have exactly the effects disable
interrupts, write LOW to pin B12, write LOW to pin C13, in this order, and
leave interrupts disabled and both pins LOW. In the running system the first
step from ram_fail disables interrupts; after it, whatever timer periods
elapse between the steps of main, interrupts stay disabled, the trace grows
by nothing but the two pin writes in order, and from the second further step
of main on the program is in the idle loop with the machine as the three
statements leave it, up to the TIM4 status register. A transition into
ram_fail is a step of main at line 100, inside the window, whose loaded word
differs from the regenerated one. -/
theorem latch_entry_ordered (ram : Ram σ) (ebss : Nat) (s : Sys σ)
    (hpc : s.pc = Pc.ram_fail) (evs : List Event) :
    (ram_fail s.m).trace = s.m.trace ++ latchEffects ∧
    (ram_fail s.m).irq_enabled = false ∧
    (ram_fail s.m).pins Port.gpiob 12 = LOW ∧ (ram_fail s.m).pins Port.gpioc 13 = LOW ∧
    cpuStep ram ebss s = ⟨Pc.led_b12, IRQ_global_disable s.m⟩ ∧
    (run ram ebss (cpuStep ram ebss s) evs).m.irq_enabled = false ∧
    (run ram ebss (cpuStep ram ebss s) evs).m.trace =
      s.m.trace ++ latchEffects.take (1 + List.count Event.cpu evs) ∧
    (2 ≤ List.count Event.cpu evs →
      (run ram ebss (cpuStep ram ebss s) evs).pc = Pc.hang ∧
      (run ram ebss (cpuStep ram ebss s) evs).m =
        { ram_fail s.m with
          tim4_sr := (run ram ebss (cpuStep ram ebss s) evs).m.tim4_sr }) ∧
    (∀ (t : Sys σ) (ev : Event), t.pc ≠ Pc.ram_fail →
      (step ram ebss t ev).pc = Pc.ram_fail →
      ev = Event.cpu ∧ t.pc = Pc.verify ∧ t.m.p < RAM_END ∧
        ram.load t.m.mem t.m.p ≠ xorshift t.m.srand) := by
  have hs : cpuStep ram ebss s = ⟨Pc.led_b12, IRQ_global_disable s.m⟩ := by
    simp only [cpuStep]; rw [hpc]
  obtain ⟨r0, r1, r2⟩ := run_led_b12 ram ebss evs (cpuStep ram ebss s) (by rw [hs])
    (by rw [hs]; rfl)
  have hcases : List.count Event.cpu evs = 0 ∨ List.count Event.cpu evs = 1 ∨
      2 ≤ List.count Event.cpu evs := by omega
  refine ⟨?_, ?_, ?_, ?_, hs, ?_, ?_, ?_, enter_ram_fail ram ebss⟩
  · rw [ram_fail_eq]; rfl
  · rw [ram_fail_eq]
  · rw [ram_fail_eq]; simp
  · rw [ram_fail_eq]; simp
  · rcases hcases with h | h | h
    · rw [(r0 h).2, hs]; rfl
    · rw [(r1 h).2, hs]; rfl
    · rw [(r2 h).2, hs]; rfl
  · rcases hcases with h | h | h
    · rw [(r0 h).2, hs, h]; rfl
    · rw [(r1 h).2, hs, h]
      simp [gpio_write_pin, IRQ_global_disable, latchEffects]
    · rw [(r2 h).2, hs]
      have ht : latchEffects.take (1 + List.count Event.cpu evs) = latchEffects := by
        apply List.take_of_length_le
        simp [latchEffects]; omega
      rw [ht]
      simp [gpio_write_pin, IRQ_global_disable, latchEffects]
  · intro h
    refine ⟨(r2 h).1, ?_⟩
    rw [(r2 h).2, hs]
    rfl

theorem latch_entry_ordered_witness :
    (run (deadRam 7) (RAM_END - 4) (startup (blank ()))
      [Event.cpu, Event.cpu, Event.cpu, Event.cpu, Event.cpu]).pc = Pc.ram_fail ∧
    (run (deadRam 7) (RAM_END - 4)
      (cpuStep (deadRam 7) (RAM_END - 4)
        (run (deadRam 7) (RAM_END - 4) (startup (blank ()))
          [Event.cpu, Event.cpu, Event.cpu, Event.cpu, Event.cpu]))
      [Event.tim4, Event.cpu, Event.tim4, Event.cpu, Event.tim4]).m.trace =
    (run (deadRam 7) (RAM_END - 4) (startup (blank ()))
      [Event.cpu, Event.cpu, Event.cpu, Event.cpu, Event.cpu]).m.trace ++
      latchEffects.take
        (1 + List.count Event.cpu [Event.tim4, Event.cpu, Event.tim4, Event.cpu, Event.tim4]) :=
  ⟨by decide,
   (latch_entry_ordered (deadRam 7) (RAM_END - 4)
      (run (deadRam 7) (RAM_END - 4) (startup (blank ()))
        [Event.cpu, Event.cpu, Event.cpu, Event.cpu, Event.cpu])
      (by decide) [Event.tim4, Event.cpu, Event.tim4, Event.cpu, Event.tim4]).2.2.2.2.2.2.1⟩

/-! ## The two indicator pins -/

theorem IRQ_tim4_pins (st : Machine σ) :
    (IRQ_tim4 st).pins Port.gpiob 12 = (IRQ_tim4 st).pins Port.gpioc 13 := by
  rw [IRQ_tim4_eq]; simp

theorem ram_fail_pins (st : Machine σ) :
    (ram_fail st).pins Port.gpiob 12 = (ram_fail st).pins Port.gpioc 13 := by
  rw [ram_fail_eq]; simp

theorem main_init_pins (boot : Machine σ) :
    (main_init boot).pins Port.gpiob 12 = (main_init boot).pins Port.gpioc 13 := by
  simp [main_init, gpio_configure_pin]

theorem applyOp_pins (ram : Ram σ) (st : Machine σ) (op : Op)
    (h : st.pins Port.gpiob 12 = st.pins Port.gpioc 13) :
    (applyOp ram st op).pins Port.gpiob 12 = (applyOp ram st op).pins Port.gpioc 13 := by
  cases op with
  | heartbeat => exact IRQ_tim4_pins st
  | fill => exact h
  | verify => exact h
  | latch => exact ram_fail_pins st

/-- The invariant of the pins in the running system: interrupts are disabled
from line 107 on, the pins are equal except between lines 107 and 108, and
there pin B12 is already LOW. -/
theorem pins_invariant (ram : Ram σ) (ebss : Nat) (s : Sys σ) (ev : Event)
    (h : ((s.pc = Pc.led_b12 ∨ s.pc = Pc.led_c13 ∨ s.pc = Pc.hang) →
        s.m.irq_enabled = false) ∧
      (s.pc ≠ Pc.led_c13 → s.m.pins Port.gpiob 12 = s.m.pins Port.gpioc 13) ∧
      (s.pc = Pc.led_c13 → s.m.pins Port.gpiob 12 = LOW)) :
    (((step ram ebss s ev).pc = Pc.led_b12 ∨ (step ram ebss s ev).pc = Pc.led_c13 ∨
        (step ram ebss s ev).pc = Pc.hang) → (step ram ebss s ev).m.irq_enabled = false) ∧
    ((step ram ebss s ev).pc ≠ Pc.led_c13 →
      (step ram ebss s ev).m.pins Port.gpiob 12 = (step ram ebss s ev).m.pins Port.gpioc 13) ∧
    ((step ram ebss s ev).pc = Pc.led_c13 →
      (step ram ebss s ev).m.pins Port.gpiob 12 = LOW) := by
  obtain ⟨h1, h2, h3⟩ := h
  cases ev with
  | tim4 =>
    by_cases hirq : s.m.irq_enabled = true
    · have hs : step ram ebss s Event.tim4 =
          { s with m := IRQ_tim4 { s.m with tim4_sr := s.m.tim4_sr ||| 1 } } := by
        simp only [step, tim4_overflow]; rw [if_pos hirq]
      have hnl : ¬ (s.pc = Pc.led_b12 ∨ s.pc = Pc.led_c13 ∨ s.pc = Pc.hang) := by
        intro hl; rw [h1 hl] at hirq; cases hirq
      rw [hs]
      refine ⟨fun hl => absurd hl hnl, fun _ => IRQ_tim4_pins _, fun hl => ?_⟩
      exact absurd (Or.inr (Or.inl hl)) hnl
    · have hoff : s.m.irq_enabled = false := by
        cases hb : s.m.irq_enabled
        · rfl
        · exact absurd hb hirq
      rw [show step ram ebss s Event.tim4 = tim4_overflow s from rfl, tim4_masked s hoff]
      exact ⟨fun _ => hoff, h2, h3⟩
  | cpu =>
    obtain ⟨pc, m⟩ := s
    cases pc with
    | for_head =>
      refine ⟨fun hl => ?_, fun _ => h2 (fun hc => by cases hc), fun hl => ?_⟩
      · rcases hl with hl | hl | hl <;> cases hl
      · cases hl
    | fill =>
      by_cases hp : m.p < RAM_END
      · have e : step ram ebss ⟨Pc.fill, m⟩ Event.cpu = ⟨Pc.fill, fillBody ram m⟩ := by
          simp only [step, cpuStep]; rw [if_pos hp]
        rw [e]
        refine ⟨fun hl => ?_, fun _ => h2 (fun hc => by cases hc), fun hl => ?_⟩
        · rcases hl with hl | hl | hl <;> cases hl
        · cases hl
      · have e : step ram ebss ⟨Pc.fill, m⟩ Event.cpu = ⟨Pc.restore, m⟩ := by
          simp only [step, cpuStep]; rw [if_neg hp]
        rw [e]
        refine ⟨fun hl => ?_, fun _ => h2 (fun hc => by cases hc), fun hl => ?_⟩
        · rcases hl with hl | hl | hl <;> cases hl
        · cases hl
    | restore =>
      refine ⟨fun hl => ?_, fun _ => h2 (fun hc => by cases hc), fun hl => ?_⟩
      · rcases hl with hl | hl | hl <;> cases hl
      · cases hl
    | verify =>
      by_cases hp : m.p < RAM_END
      · have e : step ram ebss ⟨Pc.verify, m⟩ Event.cpu =
            ⟨if (verifyBody ram m).1 then Pc.ram_fail else Pc.verify, (verifyBody ram m).2⟩ := by
          simp only [step, cpuStep]; rw [if_pos hp]
          split <;> next h => simp [h]
        rw [e]
        refine ⟨fun hl => ?_, fun _ => h2 (fun hc => by cases hc), fun hl => ?_⟩
        · dsimp only at hl
          split at hl <;> rcases hl with hl | hl | hl <;> cases hl
        · dsimp only at hl
          split at hl <;> cases hl
      · have e : step ram ebss ⟨Pc.verify, m⟩ Event.cpu = ⟨Pc.for_head, m⟩ := by
          simp only [step, cpuStep]; rw [if_neg hp]
        rw [e]
        refine ⟨fun hl => ?_, fun _ => h2 (fun hc => by cases hc), fun hl => ?_⟩
        · rcases hl with hl | hl | hl <;> cases hl
        · cases hl
    | ram_fail =>
      refine ⟨fun _ => rfl, fun _ => h2 (fun hc => by cases hc), fun hl => ?_⟩
      cases hl
    | led_b12 =>
      refine ⟨fun _ => h1 (Or.inl rfl), fun hl => absurd rfl hl, fun _ => ?_⟩
      show (gpio_write_pin Port.gpiob 12 LOW m).pins Port.gpiob 12 = LOW
      simp [gpio_write_pin, LOW]
    | led_c13 =>
      refine ⟨fun _ => h1 (Or.inr (Or.inl rfl)), fun _ => ?_, fun hl => ?_⟩
      · show (gpio_write_pin Port.gpioc 13 LOW m).pins Port.gpiob 12 =
          (gpio_write_pin Port.gpioc 13 LOW m).pins Port.gpioc 13
        have hb := h3 rfl
        dsimp only at hb
        simp [gpio_write_pin, hb, LOW]
      · cases hl
    | hang => exact ⟨h1, h2, h3⟩

theorem pins_invariant_run (ram : Ram σ) (ebss : Nat) (evs : List Event) (s : Sys σ)
    (h : ((s.pc = Pc.led_b12 ∨ s.pc = Pc.led_c13 ∨ s.pc = Pc.hang) →
        s.m.irq_enabled = false) ∧
      (s.pc ≠ Pc.led_c13 → s.m.pins Port.gpiob 12 = s.m.pins Port.gpioc 13) ∧
      (s.pc = Pc.led_c13 → s.m.pins Port.gpiob 12 = LOW)) :
    (run ram ebss s evs).pc ≠ Pc.led_c13 →
      (run ram ebss s evs).m.pins Port.gpiob 12 =
        (run ram ebss s evs).m.pins Port.gpioc 13 := by
  induction evs generalizing s with
  | nil => exact h.2.1
  | cons e es ih =>
    rw [run_cons]
    exact ih _ (pins_invariant ram ebss s e h)

/-- C16: after the pin configuration of main, after every firing of
IRQ_tim4 and after the entry of the failure latch, in any number and order
together with iterations of the test loops, pin B12 and pin C13 have the same
level. In the running system, in every state reached from startup by steps
of main and timer periods, the two pins have the same level at every program
point other than the one between the two pin writes of the latch entry,
lines 107 and 108. -/
theorem indicators_in_lockstep (ram : Ram σ) (ebss : Nat) (boot : Machine σ)
    (ops : List Op) (evs : List Event) :
    (ops.foldl (applyOp ram) (main_init boot)).pins Port.gpiob 12 =
      (ops.foldl (applyOp ram) (main_init boot)).pins Port.gpioc 13 ∧
    ((run ram ebss (startup boot) evs).pc ≠ Pc.led_c13 →
      (run ram ebss (startup boot) evs).m.pins Port.gpiob 12 =
        (run ram ebss (startup boot) evs).m.pins Port.gpioc 13) := by
  constructor
  · have key : ∀ (l : List Op) (st : Machine σ),
        st.pins Port.gpiob 12 = st.pins Port.gpioc 13 →
        (l.foldl (applyOp ram) st).pins Port.gpiob 12 =
          (l.foldl (applyOp ram) st).pins Port.gpioc 13 := by
      intro l
      induction l with
      | nil => intro st h; exact h
      | cons o os ih =>
        intro st h
        exact ih _ (applyOp_pins ram st o h)
    exact key ops _ (main_init_pins boot)
  · apply pins_invariant_run
    refine ⟨fun hl => ?_, fun _ => main_init_pins boot, fun hl => ?_⟩
    · rcases hl with hl | hl | hl <;> cases hl
    · cases hl

theorem indicators_in_lockstep_witness :
    latchedExample.pc ≠ Pc.led_c13 ∧
    latchedExample.m.pins Port.gpiob 12 = latchedExample.m.pins Port.gpioc 13 ∧
    ([Op.heartbeat, Op.fill, Op.heartbeat, Op.verify, Op.latch].foldl (applyOp (deadRam 7))
        (main_init (blank ()))).pins Port.gpiob 12 =
      ([Op.heartbeat, Op.fill, Op.heartbeat, Op.verify, Op.latch].foldl (applyOp (deadRam 7))
        (main_init (blank ()))).pins Port.gpioc 13 :=
  ⟨by decide,
   (indicators_in_lockstep (deadRam 7) (RAM_END - 4) (blank ())
      [Op.heartbeat, Op.fill, Op.heartbeat, Op.verify, Op.latch]
      [Event.cpu, Event.tim4, Event.cpu, Event.cpu, Event.cpu, Event.cpu, Event.cpu,
       Event.cpu, Event.cpu]).2 (by decide),
   (indicators_in_lockstep (deadRam 7) (RAM_END - 4) (blank ())
      [Op.heartbeat, Op.fill, Op.heartbeat, Op.verify, Op.latch]
      [Event.cpu, Event.tim4, Event.cpu, Event.cpu, Event.cpu, Event.cpu, Event.cpu,
       Event.cpu, Event.cpu]).1⟩

/-- Between the two pin writes of the latch entry the pins can differ: with
no heartbeat before the failure, pin B12 is already LOW at line 108 while pin
C13 is still HIGH. -/
theorem pins_between_latch_writes :
    (run (deadRam 7) (RAM_END - 4) (startup (blank ()))
      [Event.cpu, Event.cpu, Event.cpu, Event.cpu, Event.cpu, Event.cpu, Event.cpu]).pc =
      Pc.led_c13 ∧
    (run (deadRam 7) (RAM_END - 4) (startup (blank ()))
      [Event.cpu, Event.cpu, Event.cpu, Event.cpu, Event.cpu, Event.cpu,
       Event.cpu]).m.pins Port.gpiob 12 = LOW ∧
    (run (deadRam 7) (RAM_END - 4) (startup (blank ()))
      [Event.cpu, Event.cpu, Event.cpu, Event.cpu, Event.cpu, Event.cpu,
       Event.cpu]).m.pins Port.gpioc 13 = HIGH := by
  decide

end Blinky
